import Mathlib

/-!
Shallow embedding of the tk-houdini node-handler hooks (a Python 2 code base:
it relies on `map` returning a list, on `dict.items()` snapshots and on the
`string_escape` codec) together with proofs about the embedded operations.

Python built-ins (`str`, `int`, `max`, `str.split`, `str.join`, `str.strip`,
`list.insert`) are modelled by explicit Lean functions whose semantics follow
the Python documentation for the inputs that occur in this code base.
-/

set_option linter.unusedVariables false

namespace TkHoudini

/-! ### Models of Python built-ins -/

/-- Character for a decimal digit value (0 ↦ '0', …, 9 ↦ '9'). -/
def digitChar (n : Nat) : Char := Char.ofNat (48 + n)

/-- Value of a list of decimal digit characters, most significant first. -/
def natOfDigits (ds : List Char) : Nat :=
  ds.foldl (fun n c => n * 10 + (c.toNat - 48)) 0

/-- Fuelled decimal digit expansion of a natural number. -/
def natDigitsAux : Nat → Nat → List Char
  | 0, _ => []
  | fuel + 1, n =>
    if n < 10 then [digitChar n] else natDigitsAux fuel (n / 10) ++ [digitChar (n % 10)]

/-- Decimal digit expansion of a natural number (model of Python `str` on naturals). -/
def natDigits (n : Nat) : List Char := natDigitsAux (n + 1) n

/-- Model of Python `str` on an integer, as a character list. -/
def pyStrIntL : Int → List Char
  | Int.ofNat n => natDigits n
  | Int.negSucc n => '-' :: natDigits (n + 1)

/-- Model of Python `str` on an integer. -/
def pyStrInt (i : Int) : String := ⟨pyStrIntL i⟩

/-- Model of Python `int(s)` on a character list: `none` models a raised
`ValueError`.  (Python also accepts surrounding whitespace and a leading '+';
those inputs do not occur here.) -/
def pyIntL (cs : List Char) : Option Int :=
  match cs with
  | [] => none
  | c :: rest =>
    if c = '-' then
      if rest ≠ [] ∧ rest.all Char.isDigit then some (-(natOfDigits rest : Int)) else none
    else if (c :: rest).all Char.isDigit then some ((natOfDigits (c :: rest) : Int)) else none

/-- Model of Python `int(s)` on a string. -/
def pyInt (s : String) : Option Int := pyIntL s.data

theorem natOfDigits_append (a : List Char) (c : Char) :
    natOfDigits (a ++ [c]) = 10 * natOfDigits a + (c.toNat - 48) := by
  simp [natOfDigits, List.foldl_append, Nat.mul_comm]

theorem digitChar_toNat {d : Nat} (h : d < 10) : (digitChar d).toNat = 48 + d := by
  interval_cases d <;> decide

theorem digitChar_isDigit {d : Nat} (h : d < 10) : (digitChar d).isDigit = true := by
  interval_cases d <;> decide

theorem natOfDigits_natDigitsAux : ∀ (fuel n : Nat), n < fuel →
    natOfDigits (natDigitsAux fuel n) = n := by
  intro fuel
  induction fuel with
  | zero => intro n h; omega
  | succ fuel ih =>
    intro n h
    by_cases h10 : n < 10
    · simp only [natDigitsAux, if_pos h10]
      interval_cases n <;> decide
    · have hdiv : n / 10 < n := Nat.div_lt_self (by omega) (by omega)
      have hfuel : n / 10 < fuel := by omega
      simp only [natDigitsAux, if_neg h10]
      rw [natOfDigits_append, ih _ hfuel, digitChar_toNat (Nat.mod_lt n (by omega))]
      omega

theorem natOfDigits_natDigits (n : Nat) : natOfDigits (natDigits n) = n :=
  natOfDigits_natDigitsAux (n + 1) n (Nat.lt_succ_self n)

theorem natDigitsAux_all_digits : ∀ (fuel n : Nat),
    (natDigitsAux fuel n).all Char.isDigit = true := by
  intro fuel
  induction fuel with
  | zero => intro n; rfl
  | succ fuel ih =>
    intro n
    by_cases h10 : n < 10
    · simp only [natDigitsAux, if_pos h10, List.all_cons, List.all_nil,
        digitChar_isDigit h10, Bool.and_true]
    · simp only [natDigitsAux, if_neg h10, List.all_append, ih, List.all_cons, List.all_nil,
        digitChar_isDigit (Nat.mod_lt n (by omega)), Bool.and_true, Bool.true_and]

theorem natDigits_all_digits (n : Nat) : (natDigits n).all Char.isDigit = true :=
  natDigitsAux_all_digits (n + 1) n

theorem natDigits_ne_nil (n : Nat) : natDigits n ≠ [] := by
  unfold natDigits natDigitsAux
  by_cases h10 : n < 10 <;> simp [h10]

/-- Round trip: parsing back the printed form of an integer recovers it. -/
theorem pyIntL_pyStrIntL (i : Int) : pyIntL (pyStrIntL i) = some i := by
  cases i with
  | ofNat n =>
    have hne := natDigits_ne_nil n
    have hdig := natDigits_all_digits n
    obtain ⟨c, rest, hcr⟩ : ∃ c rest, natDigits n = c :: rest := by
      cases hh : natDigits n with
      | nil => exact absurd hh hne
      | cons c rest => exact ⟨c, rest, rfl⟩
    have hcd : c.isDigit = true := by
      have := hdig
      rw [hcr] at this
      simp only [List.all_cons, Bool.and_eq_true] at this
      exact this.1
    have hcne : c ≠ '-' := by
      intro hc
      rw [hc] at hcd
      exact absurd hcd (by decide)
    simp only [pyStrIntL, pyIntL, hcr, if_neg hcne]
    rw [← hcr, hdig]
    simp [← hcr, natOfDigits_natDigits]
  | negSucc n =>
    have hne := natDigits_ne_nil (n + 1)
    have hdig := natDigits_all_digits (n + 1)
    simp only [pyStrIntL, pyIntL, if_pos rfl, hne, ne_eq, not_false_iff, hdig, and_self,
      if_pos, natOfDigits_natDigits]
    simp [Int.negSucc_eq]

/-- Round trip on strings. -/
theorem pyInt_pyStrInt (i : Int) : pyInt (pyStrInt i) = some i :=
  pyIntL_pyStrIntL i

/-! ### ExportNodeHandler._resolve_version  (claim C1)

Source: hooks/node_handlers/base_export_handler.py, lines 228-244. -/

namespace ExportNodeHandler

def NEXT_VERSION_STR : String := "<NEXT>"

def DEFAULT_ERROR_STRING : String := "'Element' not specified"

def VERSION_POLICIES : List String := [NEXT_VERSION_STR]

/-- Model of Python `max(xs or [0])`: the maximum of a non-empty list, and `0`
for the empty list.  It is also used for `max(every_version)` below, where the
argument is provably non-empty. -/
def pyMaxOrZero : List Int → Int
  | [] => 0
  | x :: xs => xs.foldl max x

/-- Embedding of `ExportNodeHandler._resolve_version`.  `none` models the
`ValueError` raised by `int(current)` on a non-numeric string. -/
def resolve_version (all_versions : List Int) (current : String) : Option Int :=
  if current ≠ NEXT_VERSION_STR then
    match pyInt current with
    | none => none
    | some resolved =>
      let every_version := all_versions ++ [pyMaxOrZero all_versions + 1]
      if resolved ∉ every_version then some (pyMaxOrZero every_version) else some resolved
  else
    some (pyMaxOrZero all_versions + 1)

theorem le_foldl_max (l : List Int) (a : Int) : a ≤ l.foldl max a := by
  induction l generalizing a with
  | nil => exact le_refl a
  | cons x xs ih => exact le_trans (le_max_left a x) (ih (max a x))

theorem mem_le_foldl_max {x : Int} {l : List Int} (a : Int) (h : x ∈ l) :
    x ≤ l.foldl max a := by
  induction l generalizing a with
  | nil => cases h
  | cons y ys ih =>
    rcases List.mem_cons.mp h with rfl | hmem
    · exact le_trans (le_max_right a x) (le_foldl_max ys (max a x))
    · exact ih (max a y) hmem

theorem foldl_max_le {l : List Int} {a c : Int} (ha : a ≤ c) (h : ∀ x ∈ l, x ≤ c) :
    l.foldl max a ≤ c := by
  induction l generalizing a with
  | nil => exact ha
  | cons y ys ih =>
    exact ih (max_le ha (h y (List.mem_cons_self y ys))) (fun x hx => h x (List.mem_cons_of_mem y hx))

theorem mem_le_pyMaxOrZero {x : Int} {l : List Int} (h : x ∈ l) : x ≤ pyMaxOrZero l := by
  cases l with
  | nil => cases h
  | cons y ys =>
    rcases List.mem_cons.mp h with rfl | hmem
    · exact le_foldl_max ys x
    · exact mem_le_foldl_max y hmem

theorem pyMaxOrZero_append_last {l : List Int} {a : Int} (h : ∀ x ∈ l, x ≤ a) :
    pyMaxOrZero (l ++ [a]) = a := by
  cases l with
  | nil => rfl
  | cons y ys =>
    simp only [pyMaxOrZero, List.cons_append, List.foldl_append, List.foldl_cons, List.foldl_nil]
    exact max_eq_right (foldl_max_le (h y (List.mem_cons_self y ys))
      (fun x hx => h x (List.mem_cons_of_mem y hx)))

theorem pyMaxOrZero_every_version (l : List Int) :
    pyMaxOrZero (l ++ [pyMaxOrZero l + 1]) = pyMaxOrZero l + 1 :=
  pyMaxOrZero_append_last (fun x hx => le_trans (mem_le_pyMaxOrZero hx) (by omega))

theorem resolve_version_next (all_versions : List Int) :
    resolve_version all_versions NEXT_VERSION_STR = some (pyMaxOrZero all_versions + 1) := by
  simp [resolve_version]

theorem resolve_version_parse (all_versions : List Int) {current : String} {n : Int}
    (h1 : current ≠ NEXT_VERSION_STR) (h2 : pyInt current = some n) :
    resolve_version all_versions current =
      if n ∉ all_versions ++ [pyMaxOrZero all_versions + 1] then
        some (pyMaxOrZero (all_versions ++ [pyMaxOrZero all_versions + 1]))
      else some n := by
  unfold resolve_version
  rw [if_pos h1, h2]

end ExportNodeHandler

open ExportNodeHandler in
/-- C1 (counterexample): the claim asserts the result of `_resolve_version` is
always at least 1, for every list of integers.  With `all_versions = [0]` and
`current = "0"` the function returns 0, which is below 1. -/
theorem C1_counterexample :
    resolve_version [0] "0" = some 0 ∧ ¬ (1 ≤ (0 : Int)) := by
  exact ⟨by decide, by decide⟩

open ExportNodeHandler in
/-- C1 (amended): for `current = "<NEXT>"` the result is `max(all_versions) + 1`
(1 on the empty list); for a decimal-integer `current` the result is
`int(current)` when that value lies in `all_versions` or equals
`max(all_versions) + 1`, and `max(all_versions) + 1` otherwise; the result is
always an element of `all_versions` extended with its next version; and it is
at least 1 provided every existing version is at least 1 (the unconditional
"at least 1" of the claim fails, see the counterexample). -/
theorem C1_resolve_version_characterisation (all_versions : List Int) (current : String) :
    (current = NEXT_VERSION_STR →
      resolve_version all_versions current = some (pyMaxOrZero all_versions + 1)) ∧
    (∀ n : Int, current ≠ NEXT_VERSION_STR → pyInt current = some n →
      resolve_version all_versions current =
        some (if n ∈ all_versions ∨ n = pyMaxOrZero all_versions + 1 then n
              else pyMaxOrZero all_versions + 1)) ∧
    (∀ r : Int, resolve_version all_versions current = some r →
      r ∈ all_versions ++ [pyMaxOrZero all_versions + 1]) ∧
    ((∀ v ∈ all_versions, 1 ≤ v) → ∀ r : Int,
      resolve_version all_versions current = some r → 1 ≤ r) := by
  have hmem_iff : ∀ n : Int, n ∈ all_versions ++ [pyMaxOrZero all_versions + 1] ↔
      (n ∈ all_versions ∨ n = pyMaxOrZero all_versions + 1) := by
    intro n
    simp [List.mem_append]
  have hmem_of : ∀ r : Int, resolve_version all_versions current = some r →
      r ∈ all_versions ++ [pyMaxOrZero all_versions + 1] := by
    intro r hr
    by_cases hne : current ≠ NEXT_VERSION_STR
    · cases hparse : pyInt current with
      | none =>
        rw [resolve_version, if_pos hne, hparse] at hr
        cases hr
      | some n =>
        rw [resolve_version_parse all_versions hne hparse] at hr
        by_cases hm : n ∈ all_versions ++ [pyMaxOrZero all_versions + 1]
        · rw [if_neg (not_not_intro hm)] at hr
          cases hr
          exact hm
        · rw [if_pos hm, pyMaxOrZero_every_version] at hr
          cases hr
          simp
    · rw [not_not] at hne
      rw [hne, resolve_version_next] at hr
      cases hr
      simp
  refine ⟨?_, ?_, hmem_of, ?_⟩
  · intro h
    rw [h, resolve_version_next]
  · intro n hne hparse
    rw [resolve_version_parse all_versions hne hparse]
    by_cases hm : n ∈ all_versions ++ [pyMaxOrZero all_versions + 1]
    · rw [if_neg (not_not_intro hm), if_pos ((hmem_iff n).mp hm)]
    · rw [if_pos hm, if_neg (by rw [← hmem_iff n]; exact hm),
        pyMaxOrZero_every_version]
  · intro hpos r hr
    have hmem : r ∈ all_versions ++ [pyMaxOrZero all_versions + 1] := hmem_of r hr
    rcases (hmem_iff r).mp hmem with h | h
    · exact hpos r h
    · have h0 : 0 ≤ pyMaxOrZero all_versions := by
        cases hv : all_versions with
        | nil => simp [pyMaxOrZero]
        | cons x xs =>
          have hx : 1 ≤ x := hpos x (by rw [hv]; exact List.mem_cons_self x xs)
          have hle : x ≤ pyMaxOrZero (x :: xs) := mem_le_pyMaxOrZero (List.mem_cons_self x xs)
          exact le_trans (le_trans zero_le_one hx) hle
      omega

open ExportNodeHandler in
/-- C1 witness: the characterisation applied at the concrete inputs
`all_versions = [1, 2]`, `current = "<NEXT>"` and `current = "2"`. -/
theorem C1_witness :
    resolve_version [1, 2] NEXT_VERSION_STR = some (pyMaxOrZero [1, 2] + 1) ∧ (1 : Int) ≤ 2 :=
  ⟨(C1_resolve_version_characterisation [1, 2] NEXT_VERSION_STR).1 rfl,
   (C1_resolve_version_characterisation [1, 2] "2").2.2.2 (by decide) 2 (by decide)⟩

/-! ### ExportNodeHandler input validation  (claim C3)

Source: hooks/node_handlers/base_export_handler.py, lines 27-46 (FieldInputError)
and 396-428 (_validate_input, _validate_parm). -/

/-- Characters removed by Python `str.strip()`. -/
def pyIsSpace (c : Char) : Bool :=
  c == ' ' || c == '\t' || c == '\n' || c == '\r' || c == '\x0b' || c == '\x0c'

/-- Model of Python `str.strip()` on a character list. -/
def pyStripL (cs : List Char) : List Char :=
  ((cs.dropWhile pyIsSpace).reverse.dropWhile pyIsSpace).reverse

/-- Model of Python `str.strip()`. -/
def pyStrip (s : String) : String := ⟨pyStripL s.data⟩

/-- Membership in the character class of the regex: ASCII letters and digits. -/
def isAlnumAscii (c : Char) : Bool := c.isAlpha || c.isDigit

theorem head_dropWhile_not (p : Char → Bool) : ∀ (l : List Char) (c : Char),
    (l.dropWhile p).head? = some c → p c = false := by
  intro l
  induction l with
  | nil => intro c h; cases h
  | cons x xs ih =>
    intro c h
    by_cases hx : p x = true
    · rw [List.dropWhile_cons, if_pos hx] at h
      exact ih c h
    · rw [List.dropWhile_cons, if_neg hx] at h
      simp only [List.head?_cons, Option.some.injEq] at h
      subst h
      exact Bool.not_eq_true _ |>.mp hx

theorem pyStripL_getLast_not_space {cs : List Char} {c : Char}
    (h : (pyStripL cs).getLast? = some c) : pyIsSpace c = false := by
  unfold pyStripL at h
  rw [List.getLast?_reverse] at h
  exact head_dropWhile_not pyIsSpace _ c h

namespace ExportNodeHandler

/-- Embedding of the FieldInputError data (regex description and offending value). -/
structure FieldInputError where
  regex : String
  invalid_value : String
deriving DecidableEq

/-- The message built by FieldInputError.TEMPLATE.format(regex, invalid_value). -/
def FieldInputError.message (e : FieldInputError) : String :=
  "Input does not match \"" ++ e.regex ++ "\": \"" ++ e.invalid_value ++ "\""

/-- Python re.match of the anchored alphanumeric pattern against s: a run of
ASCII alphanumerics covering the whole string, where the dollar anchor also
matches just before a single trailing newline. -/
def re_match_alnum_star (s : String) : Bool :=
  s.data.all isAlnumAscii ||
    (match s.data.getLast? with
     | some c => (c == '\n') && s.data.dropLast.all isAlnumAscii
     | none => false)

/-- Embedding of ExportNodeHandler._validate_input: error models the raised
FieldInputError. -/
def validate_input (input_value : String) : Except FieldInputError Unit :=
  if re_match_alnum_star input_value then Except.ok ()
  else Except.error ⟨"only letters and numbers", input_value⟩

/-- A Houdini string parameter, reduced to its stored value. -/
structure HouStringParm where
  value : String
deriving DecidableEq

/-- Embedding of ExportNodeHandler._validate_parm: returns the validation
status, the parameter after the call, and the warning-box message, if shown. -/
def validate_parm (parm : HouStringParm) : Bool × HouStringParm × Option String :=
  let value := pyStrip parm.value
  match validate_input value with
  | Except.ok () => (true, parm, none)
  | Except.error error => (false, ⟨""⟩, some error.message)

theorem re_match_pyStrip (s : String) :
    re_match_alnum_star (pyStrip s) = (pyStrip s).data.all isAlnumAscii := by
  unfold re_match_alnum_star
  cases hl : (pyStrip s).data.getLast? with
  | none => simp
  | some c =>
    have hc : pyIsSpace c = false := pyStripL_getLast_not_space hl
    have hcn : (c == '\n') = false := by
      cases hcc : c == '\n' with
      | false => rfl
      | true =>
        rw [show c = '\n' from beq_iff_eq.mp hcc] at hc
        cases hc
    simp [hcn]

end ExportNodeHandler

open ExportNodeHandler in
/-- C3: _validate_parm returns True and leaves the parameter unchanged exactly
when the stripped value is entirely ASCII alphanumeric (the empty string
passes); otherwise it returns False, resets the parameter to the empty string
and shows the FieldInputError warning message; and _validate_input raises
exactly when its input fails the anchored alphanumeric regex. -/
theorem C3_validate_parm_characterisation (parm : HouStringParm) :
    (((validate_parm parm).1 = true ∧ (validate_parm parm).2.1 = parm) ↔
      (pyStrip parm.value).data.all isAlnumAscii = true) ∧
    ((pyStrip parm.value).data.all isAlnumAscii = false →
      (validate_parm parm).1 = false ∧ (validate_parm parm).2.1.value = "" ∧
        (validate_parm parm).2.2 =
          some (FieldInputError.message ⟨"only letters and numbers", pyStrip parm.value⟩)) ∧
    (∀ s : String,
      validate_input s = Except.error ⟨"only letters and numbers", s⟩ ↔
        re_match_alnum_star s = false) := by
  refine ⟨?_, ?_, ?_⟩
  · have hre := re_match_pyStrip parm.value
    cases h : (pyStrip parm.value).data.all isAlnumAscii with
    | true =>
      rw [h] at hre
      simp [validate_parm, validate_input, hre]
    | false =>
      rw [h] at hre
      simp [validate_parm, validate_input, hre]
  · intro h
    have hre := re_match_pyStrip parm.value
    rw [h] at hre
    simp [validate_parm, validate_input, hre, FieldInputError.message]
  · intro s
    unfold validate_input
    cases h : re_match_alnum_star s with
    | true => simp
    | false => simp

open ExportNodeHandler in
/-- C3 witness: the characterisation applied at the concrete parameter values
" ab12 " (passes, unchanged) and "a-b" (fails, reset and warned). -/
theorem C3_witness :
    ((validate_parm ⟨" ab12 "⟩).1 = true ∧ (validate_parm ⟨" ab12 "⟩).2.1 = ⟨" ab12 "⟩) ∧
    (validate_parm ⟨"a-b"⟩).1 = false ∧ (validate_parm ⟨"a-b"⟩).2.1.value = "" ∧
      (validate_parm ⟨"a-b"⟩).2.2 =
        some (FieldInputError.message ⟨"only letters and numbers", pyStrip "a-b"⟩) :=
  ⟨(C3_validate_parm_characterisation ⟨" ab12 "⟩).1.mpr (by decide),
   (C3_validate_parm_characterisation ⟨"a-b"⟩).2.1 (by decide)⟩

/-! ### NodeHandlerBase version helpers  (claim C5)

Source: python/tk_houdini/base_hooks/node_handler_base.py, lines 447-473. -/

/-- Model of Python s.split(",") on a character list. -/
def pySplitComma : List Char → List (List Char)
  | [] => [[]]
  | c :: cs =>
    if c = ',' then [] :: pySplitComma cs
    else
      match pySplitComma cs with
      | head :: tail => (c :: head) :: tail
      | [] => [[c]]

/-- Model of Python ",".join(parts) on character lists. -/
def joinCommaL : List (List Char) → List Char
  | [] => []
  | [x] => x
  | x :: xs => x ++ ',' :: joinCommaL xs

namespace NodeHandlerBase

/-- Embedding of NodeHandlerBase._get_all_versions reduced to the value of the
sgtk_all_versions parameter: split on commas, drop the empty entries, parse
each part as an integer.  none models the ValueError raised by int() on a
malformed part. -/
def get_all_versions (all_versions_str : String) : Option (List Int) :=
  ((pySplitComma all_versions_str.data).filter (fun p => p ≠ [])).mapM pyIntL

/-- Embedding of NodeHandlerBase._populate_versions (Python 2 semantics: map
returns a list, which is extended with the version policies in place and then
interleaved with itself through itertools.chain over zip). -/
def populate_versions (version_policies : List String) (all_versions_str : String) :
    Option (List String) :=
  (get_all_versions all_versions_str).map fun all_versions =>
    let versions := all_versions.map pyStrInt ++ version_policies
    (versions.zip versions).flatMap fun p => [p.1, p.2]

end NodeHandlerBase

/-- Claim-side description of the menu list: every element repeated twice, in
adjacent positions, in order. -/
def dupEach {α : Type} : List α → List α
  | [] => []
  | x :: xs => x :: x :: dupEach xs

theorem pySplitComma_ne_nil : ∀ cs : List Char, pySplitComma cs ≠ [] := by
  intro cs
  induction cs with
  | nil => simp [pySplitComma]
  | cons c cs ih =>
    rw [pySplitComma]
    by_cases hc : c = ','
    · rw [if_pos hc]
      simp
    · rw [if_neg hc]
      cases h : pySplitComma cs with
      | nil => simp
      | cons hd tl => simp

theorem pySplitComma_no_comma : ∀ cs : List Char, ',' ∉ cs → pySplitComma cs = [cs] := by
  intro cs
  induction cs with
  | nil => intro _; rfl
  | cons c cs ih =>
    intro h
    have hc : ¬(c = ',') := fun he => h (he ▸ List.mem_cons_self _ _)
    rw [pySplitComma, if_neg hc, ih (fun hm => h (List.mem_cons_of_mem _ hm))]

theorem pySplitComma_append : ∀ (a t hd : List Char) (tl : List (List Char)),
    ',' ∉ a → pySplitComma t = hd :: tl → pySplitComma (a ++ t) = (a ++ hd) :: tl := by
  intro a
  induction a with
  | nil =>
    intro t hd tl _ ht
    simpa using ht
  | cons c a' ih =>
    intro t hd tl hc ht
    have hc' : ¬(c = ',') := fun he => hc (he ▸ List.mem_cons_self _ _)
    rw [List.cons_append, pySplitComma, if_neg hc',
      ih t hd tl (fun hm => hc (List.mem_cons_of_mem _ hm)) ht]
    rfl

theorem pySplitComma_join : ∀ parts : List (List Char), parts ≠ [] →
    (∀ p ∈ parts, ',' ∉ p) → pySplitComma (joinCommaL parts) = parts := by
  intro parts
  induction parts with
  | nil => intro h _; exact absurd rfl h
  | cons x xs ih =>
    intro _ hnc
    cases xs with
    | nil => exact pySplitComma_no_comma x (hnc x (List.mem_cons_self _ _))
    | cons y ys =>
      have hx : ',' ∉ x := hnc x (List.mem_cons_self _ _)
      have hrec : pySplitComma (joinCommaL (y :: ys)) = y :: ys :=
        ih (by simp) (fun p hp => hnc p (List.mem_cons_of_mem _ hp))
      have hsplit : pySplitComma (',' :: joinCommaL (y :: ys)) =
          [] :: (y :: ys) := by
        rw [pySplitComma, if_pos rfl, hrec]
      have := pySplitComma_append x (',' :: joinCommaL (y :: ys)) [] (y :: ys) hx hsplit
      rw [joinCommaL]
      simpa using this
      intro hcon
      cases hcon

theorem zip_self_bind_eq_dupEach {α : Type} (l : List α) :
    (l.zip l).flatMap (fun p => [p.1, p.2]) = dupEach l := by
  induction l with
  | nil => rfl
  | cons x xs ih => simp [dupEach, ih]

theorem count_dupEach (l : List String) (x : String) :
    (dupEach l).count x = 2 * l.count x := by
  induction l with
  | nil => rfl
  | cons y ys ih =>
    by_cases h : x = y
    · subst h
      simp only [dupEach, List.count_cons, ih]
      simp
      omega
    · simp only [dupEach, List.count_cons, ih]
      simp [h]
      omega

theorem populate_versions_spec (version_policies : List String) {s : String}
    {vs : List Int} (h : NodeHandlerBase.get_all_versions s = some vs) :
    NodeHandlerBase.populate_versions version_policies s =
      some (dupEach (vs.map pyStrInt ++ version_policies)) := by
  simp [NodeHandlerBase.populate_versions, h, zip_self_bind_eq_dupEach]

theorem pyStrIntL_ne_nil (i : Int) : pyStrIntL i ≠ [] := by
  cases i with
  | ofNat n => exact natDigits_ne_nil n
  | negSucc n => simp [pyStrIntL]

theorem not_mem_pyStrIntL {c : Char} (hdig : c.isDigit = false) (hdash : c ≠ '-')
    (i : Int) : c ∉ pyStrIntL i := by
  intro hmem
  cases i with
  | ofNat n =>
    have hall := natDigits_all_digits n
    rw [List.all_eq_true] at hall
    rw [hall c hmem] at hdig
    cases hdig
  | negSucc n =>
    rcases List.mem_cons.mp hmem with he | hmem'
    · exact hdash he
    · have hall := natDigits_all_digits (n + 1)
      rw [List.all_eq_true] at hall
      rw [hall c hmem'] at hdig
      cases hdig

theorem mapM_pyIntL_map : ∀ vs : List Int, (vs.map pyStrIntL).mapM pyIntL = some vs := by
  intro vs
  induction vs with
  | nil => rfl
  | cons v vs ih =>
    rw [List.map_cons, List.mapM_cons, pyIntL_pyStrIntL v, ih]
    rfl

/-- Writing back a joined version list and parsing it recovers the list: the
round trip behind _update_all_versions followed by _get_all_versions. -/
theorem get_all_versions_join (vs : List Int) :
    NodeHandlerBase.get_all_versions
      ⟨joinCommaL ((vs.map pyStrInt).map String.data)⟩ = some vs := by
  have hdata : (vs.map pyStrInt).map String.data = vs.map pyStrIntL := by
    rw [List.map_map]
    exact List.map_congr_left (fun i _ => rfl)
  rw [hdata]
  unfold NodeHandlerBase.get_all_versions
  cases vs with
  | nil => rfl
  | cons v vs' =>
    have hsplit : pySplitComma (joinCommaL ((v :: vs').map pyStrIntL)) =
        (v :: vs').map pyStrIntL := by
      apply pySplitComma_join
      · simp
      · intro p hp
        obtain ⟨i, _, rfl⟩ := List.mem_map.mp hp
        exact not_mem_pyStrIntL (by decide) (by decide) i
    have hfilter : (((v :: vs').map pyStrIntL).filter (fun p => p ≠ [])) =
        (v :: vs').map pyStrIntL := by
      rw [List.filter_eq_self]
      intro a ha
      obtain ⟨i, _, rfl⟩ := List.mem_map.mp ha
      simpa using pyStrIntL_ne_nil i
    rw [show (String.mk (joinCommaL ((v :: vs').map pyStrIntL))).data =
      joinCommaL ((v :: vs').map pyStrIntL) from rfl]
    rw [hsplit, hfilter, mapM_pyIntL_map]

open NodeHandlerBase in
/-- C5: when the sgtk_all_versions parameter holds a comma-separated list of
integer strings, _populate_versions completes and returns the list in which
each version string, then each version policy, appears exactly twice, in
adjacent positions and in order. -/
theorem C5_populate_versions (version_policies : List String) (s : String) (vs : List Int)
    (h : get_all_versions s = some vs) :
    populate_versions version_policies s =
      some (dupEach (vs.map pyStrInt ++ version_policies)) ∧
    (∀ x : String, (dupEach (vs.map pyStrInt ++ version_policies)).count x =
      2 * (vs.map pyStrInt ++ version_policies).count x) := by
  constructor
  · exact populate_versions_spec version_policies h
  · intro x
    exact count_dupEach _ x

open NodeHandlerBase in
/-- C5 witness: the theorem applied to the parameter value "1,2" with the
export handler version policies. -/
theorem C5_witness :
    populate_versions ["<NEXT>"] "1,2" =
      some (dupEach (([1, 2] : List Int).map pyStrInt ++ ["<NEXT>"])) :=
  (C5_populate_versions ["<NEXT>"] "1,2" [1, 2] (by decide)).1

/-! ### ParmFolder.get_root  (claim C9)

Source: python/tk_houdini/utils/parm_template_wrappers.py, lines 111-120.
The loop body is exactly `parent = current`: `current` itself is never
re-assigned, so the loop condition `current.parent` never changes. -/

namespace ParmFolder

/-- The ancestor chain of a Parm object: the object either has no parent or a
parent with its own chain.  Only parent links matter to get_root. -/
inductive Chain where
  | root : Chain
  | child : Chain → Chain
deriving DecidableEq

def Chain.parent : Chain → Option Chain
  | Chain.root => none
  | Chain.child p => some p

/-- The while-loop of get_root with its two local variables.  Each iteration
checks current.parent and runs parent = current.  fuel bounds the number of
iterations; none means the loop is still running when the fuel runs out. -/
def get_root_loop (parent current : Chain) : Nat → Option Chain
  | 0 => none
  | fuel + 1 =>
    match current.parent with
    | some _ => get_root_loop current current fuel
    | none => some parent

/-- Embedding of ParmFolder.get_root: parent = current = self, then the loop,
then return parent. -/
def get_root (self_ : Chain) (fuel : Nat) : Option Chain :=
  get_root_loop self_ self_ fuel

theorem get_root_loop_child (c : Chain) :
    ∀ (fuel : Nat) (p : Chain), get_root_loop p (Chain.child c) fuel = none := by
  intro fuel
  induction fuel with
  | zero => intro p; rfl
  | succ fuel ih => intro p; exact ih (Chain.child c)

end ParmFolder

open ParmFolder in
/-- C9 (code bug): contrary to its docstring, get_root only terminates on a
folder without a parent, where it returns the folder itself; on any folder
that has a parent, the loop body parent = current never advances current, so
the loop never exits: for every iteration bound it is still running. -/
theorem C9_get_root_diverges :
    (∀ (c : Chain) (fuel : Nat), get_root (Chain.child c) fuel = none) ∧
    (∀ fuel : Nat, get_root Chain.root (fuel + 1) = some Chain.root) :=
  ⟨fun c fuel => get_root_loop_child c fuel (Chain.child c), fun _ => rfl⟩

/-! ### ImportNodeHandler._update_publish_data_parm  (claim C10)

Source: hooks/node_handlers/base_import_handler.py, lines 700-717.  Python 2
semantics: dict.items() returns a snapshot list, so popping keys while
iterating over it is safe. -/

namespace ImportNodeHandler

/-- A value in a publish-data dictionary, as far as serialisation is
concerned: a string, an integer, or a datetime object (opaque payload). -/
inductive PubVal where
  | str : String → PubVal
  | int : Int → PubVal
  | datetime : Nat → PubVal
deriving DecidableEq

def PubVal.isDatetime : PubVal → Bool
  | PubVal.datetime _ => true
  | _ => false

/-- A Python dict modelled as an insertion-ordered association list whose keys
are unique. -/
abbrev PubDict := List (String × PubVal)

/-- Model of dict item assignment d[k] = v. -/
def dictSet (d : PubDict) (k : String) (v : PubVal) : PubDict :=
  if d.any (fun p => p.1 == k) then d.map (fun p => if p.1 == k then (k, v) else p)
  else d ++ [(k, v)]

/-- Model of dict.pop(k): none models the KeyError raised on a missing key. -/
def dictPop (d : PubDict) (k : String) : Option PubDict :=
  if d.any (fun p => p.1 == k) then some (d.filter (fun p => !(p.1 == k))) else none

/-- Model of json.dumps on a single value: serialising a datetime raises
TypeError, modelled as none (which is why the code removes datetimes first). -/
def PubVal.dumps : PubVal → Option String
  | PubVal.str s => some ("\"" ++ s ++ "\"")
  | PubVal.int i => some (pyStrInt i)
  | PubVal.datetime _ => none

/-- Model of json.dumps on a dict. -/
def json_dumps (d : PubDict) : Option String := do
  let parts ← d.mapM (fun p => do
    let v ← p.2.dumps
    pure ("\"" ++ p.1 ++ "\": " ++ v))
  pure ("\x7b" ++ (⟨joinCommaL (parts.map String.data)⟩ : String) ++ "\x7d")

/-- The datetime purge loop of _update_publish_data_parm: iterate over the
items snapshot, popping every datetime-valued key from the dict. -/
def purge_datetimes : List (String × PubVal) → PubDict → Option PubDict
  | [], d => some d
  | (k, v) :: rest, d =>
    if v.isDatetime then (dictPop d k).bind (purge_datetimes rest)
    else purge_datetimes rest d

/-- Embedding of ImportNodeHandler._update_publish_data_parm: add the
version_policy entry, pop datetime-valued entries while iterating over the
items snapshot, then store the JSON serialisation.  The returned pair is the
final dict and the string written to the sgtk_publish_data parameter; none
models a raised exception. -/
def update_publish_data_parm (publish_data : PubDict) (version_policy : String) :
    Option (PubDict × String) := do
  let d1 := dictSet publish_data "version_policy" (PubVal.str version_policy)
  let d2 ← purge_datetimes d1 d1
  let s ← json_dumps d2
  pure (d2, s)

/-- Claim-side description of the final dictionary: the input with the
version_policy entry added and every datetime-valued entry removed. -/
def purged_publish_data (publish_data : PubDict) (version_policy : String) : PubDict :=
  (dictSet publish_data "version_policy" (PubVal.str version_policy)).filter
    (fun p => !p.2.isDatetime)

theorem key_unique {d : PubDict} (h : (d.map Prod.fst).Nodup) {p q : String × PubVal}
    (hp : p ∈ d) (hq : q ∈ d) (hk : p.1 = q.1) : p = q :=
  List.inj_on_of_nodup_map h hp hq hk

theorem dictSet_keys_nodup {d : PubDict} (h : (d.map Prod.fst).Nodup) (k : String)
    (v : PubVal) : ((dictSet d k v).map Prod.fst).Nodup := by
  unfold dictSet
  by_cases hany : d.any (fun p => p.1 == k) = true
  · rw [if_pos hany]
    have : (d.map (fun p => if p.1 == k then (k, v) else p)).map Prod.fst = d.map Prod.fst := by
      rw [List.map_map]
      apply List.map_congr_left
      intro p hp
      by_cases hpk : p.1 == k
      · simp only [Function.comp_apply, if_pos hpk]
        exact (beq_iff_eq.mp hpk).symm
      · simp only [Function.comp_apply, if_neg hpk]
    rw [this]
    exact h
  · rw [if_neg hany]
    rw [List.map_append]
    simp only [List.map_cons, List.map_nil]
    rw [List.nodup_append]
    refine ⟨h, List.nodup_singleton k, ?_⟩
    intro a ha hb
    simp only [List.mem_singleton] at hb
    subst hb
    simp only [List.any_eq_true, not_exists, not_and, Bool.not_eq_true] at hany
    obtain ⟨p, hp, hpa⟩ := List.mem_map.mp ha
    have := hany p hp
    rw [hpa] at this
    simp at this

theorem dictSet_mem_iff {d : PubDict} (key : String)
    (val : PubVal) (k : String) (v : PubVal) :
    (k, v) ∈ dictSet d key val ↔
      ((k = key ∧ v = val) ∨ (k ≠ key ∧ (k, v) ∈ d)) := by
  unfold dictSet
  by_cases hany : d.any (fun p => p.1 == key) = true
  · rw [if_pos hany]
    constructor
    · intro hmem
      obtain ⟨p, hp, hfp⟩ := List.mem_map.mp hmem
      by_cases hpk : (p.1 == key) = true
      · rw [if_pos hpk] at hfp
        injection hfp with h1 h2
        exact Or.inl ⟨h1.symm, h2.symm⟩
      · rw [if_neg hpk] at hfp
        subst hfp
        exact Or.inr ⟨fun hc => hpk (beq_iff_eq.mpr hc), hp⟩
    · intro hor
      rcases hor with ⟨hk, hv⟩ | ⟨hk, hmem⟩
      · subst hk
        subst hv
        obtain ⟨q, hq, hqk⟩ := List.any_eq_true.mp hany
        exact List.mem_map.mpr ⟨q, hq, by rw [if_pos hqk]⟩
      · exact List.mem_map.mpr ⟨(k, v), hmem,
          by rw [if_neg (fun hc => hk (beq_iff_eq.mp hc))]⟩
  · rw [if_neg hany]
    rw [List.mem_append, List.mem_singleton]
    have habs : ∀ p ∈ d, p.1 ≠ key := by
      intro p hp hpk
      apply hany
      rw [List.any_eq_true]
      exact ⟨p, hp, beq_iff_eq.mpr hpk⟩
    constructor
    · intro hor
      rcases hor with hmem | heq
      · exact Or.inr ⟨habs (k, v) hmem, hmem⟩
      · injection heq with h1 h2
        exact Or.inl ⟨h1, h2⟩
    · intro hor
      rcases hor with ⟨hk, hv⟩ | ⟨hk, hmem⟩
      · subst hk
        subst hv
        exact Or.inr rfl
      · exact Or.inl hmem

theorem filter_keys_nodup {d : PubDict} (hnd : (d.map Prod.fst).Nodup)
    (q : String × PubVal → Bool) : ((d.filter q).map Prod.fst).Nodup :=
  List.Nodup.sublist (List.Sublist.map Prod.fst (List.filter_sublist d)) hnd

theorem purge_datetimes_spec : ∀ (items d : PubDict),
    (items.map Prod.fst).Nodup → (d.map Prod.fst).Nodup →
    (∀ kv ∈ items, kv ∈ d) →
    purge_datetimes items d =
      some (d.filter (fun p => !(decide (p ∈ items) && p.2.isDatetime))) := by
  intro items
  induction items with
  | nil =>
    intro d _ _ _
    simp [purge_datetimes]
  | cons hd rest ih =>
    obtain ⟨k, v⟩ := hd
    intro d hni hnd hsub
    have hkv_d : (k, v) ∈ d := hsub (k, v) (List.mem_cons_self _ _)
    have hni' : (rest.map Prod.fst).Nodup := by
      simp only [List.map_cons, List.nodup_cons] at hni
      exact hni.2
    have hknotin : k ∉ rest.map Prod.fst := by
      simp only [List.map_cons, List.nodup_cons] at hni
      exact hni.1
    by_cases hdt : v.isDatetime = true
    · have hany : d.any (fun p => p.1 == k) = true :=
        List.any_eq_true.mpr ⟨(k, v), hkv_d, beq_iff_eq.mpr rfl⟩
      have hpop : dictPop d k = some (d.filter (fun p => !(p.1 == k))) := by
        unfold dictPop
        rw [if_pos hany]
      have hnd' : ((d.filter (fun p => !(p.1 == k))).map Prod.fst).Nodup :=
        filter_keys_nodup hnd _
      have hsub' : ∀ kv ∈ rest, kv ∈ d.filter (fun p => !(p.1 == k)) := by
        intro kv hkv
        have hmem : kv ∈ d := hsub kv (List.mem_cons_of_mem _ hkv)
        have hne : kv.1 ≠ k := fun he => hknotin (he ▸ List.mem_map_of_mem Prod.fst hkv)
        refine List.mem_filter.mpr ⟨hmem, ?_⟩
        simp [hne]
      rw [purge_datetimes, if_pos hdt, hpop, Option.some_bind, ih _ hni' hnd' hsub',
        List.filter_filter]
      congr 1
      apply List.filter_congr
      intro p hp
      by_cases hp1 : p.1 = k
      · have hpkv : p = (k, v) := key_unique hnd hp hkv_d hp1
        subst hpkv
        simp [hdt]
      · have hne_pair : p ≠ (k, v) := fun he => hp1 (by rw [he])
        have hmem_iff : (p ∈ (k, v) :: rest) = (p ∈ rest) := by
          rw [eq_iff_iff, List.mem_cons]
          exact ⟨fun h => h.resolve_left hne_pair, Or.inr⟩
        simp [hp1, hmem_iff]
    · have hdt' : v.isDatetime = false := Bool.not_eq_true _ |>.mp hdt
      have hsub' : ∀ kv ∈ rest, kv ∈ d := fun kv hkv => hsub kv (List.mem_cons_of_mem _ hkv)
      rw [purge_datetimes, if_neg hdt, ih _ hni' hnd hsub']
      congr 1
      apply List.filter_congr
      intro p hp
      by_cases hpe : p = (k, v)
      · subst hpe
        simp [hdt']
      · have hmem_iff : (p ∈ (k, v) :: rest) = (p ∈ rest) := by
          rw [eq_iff_iff, List.mem_cons]
          exact ⟨fun h => h.resolve_left hpe, Or.inr⟩
        simp [hmem_iff]

theorem mapM_dumps_isSome : ∀ (d : PubDict), (∀ p ∈ d, p.2.isDatetime = false) →
    (d.mapM (fun p => (PubVal.dumps p.2).bind
      (fun v => some ("\"" ++ p.1 ++ "\": " ++ v)))).isSome = true := by
  intro d
  induction d with
  | nil => intro _; rfl
  | cons hd rest ih =>
    intro h
    have hhd : hd.2.isDatetime = false := h hd (List.mem_cons_self _ _)
    have hrest := ih (fun p hp => h p (List.mem_cons_of_mem _ hp))
    rw [List.mapM_cons]
    cases hv : hd.2 with
    | str s =>
      cases hm : rest.mapM (fun p => (PubVal.dumps p.2).bind
          (fun v => some ("\"" ++ p.1 ++ "\": " ++ v))) with
      | none => rw [hm] at hrest; cases hrest
      | some parts => simp [PubVal.dumps, hm]
    | int i =>
      cases hm : rest.mapM (fun p => (PubVal.dumps p.2).bind
          (fun v => some ("\"" ++ p.1 ++ "\": " ++ v))) with
      | none => rw [hm] at hrest; cases hrest
      | some parts => simp [PubVal.dumps, hm]
    | datetime n =>
      rw [hv] at hhd
      cases hhd

theorem json_dumps_isSome {d : PubDict} (h : ∀ p ∈ d, p.2.isDatetime = false) :
    (json_dumps d).isSome = true := by
  unfold json_dumps
  have := mapM_dumps_isSome d h
  cases hm : d.mapM (fun p => (PubVal.dumps p.2).bind
      (fun v => some ("\"" ++ p.1 ++ "\": " ++ v))) with
  | none => rw [hm] at this; cases this
  | some parts => simp [bind, hm]

end ImportNodeHandler

open ImportNodeHandler in
/-- C10: for every publish-data dictionary (datetime values included) and
version policy, _update_publish_data_parm completes without raising and stores
the JSON serialisation of the dictionary with every datetime-valued entry
removed and a version_policy entry added. -/
theorem C10_update_publish_data_parm (publish_data : PubDict) (version_policy : String)
    (hnodup : (publish_data.map Prod.fst).Nodup) :
    update_publish_data_parm publish_data version_policy =
      (json_dumps (purged_publish_data publish_data version_policy)).map
        (fun s => (purged_publish_data publish_data version_policy, s)) ∧
    (json_dumps (purged_publish_data publish_data version_policy)).isSome = true ∧
    ∀ (k : String) (v : PubVal),
      ((k, v) ∈ purged_publish_data publish_data version_policy ↔
        (v.isDatetime = false ∧
          ((k = "version_policy" ∧ v = PubVal.str version_policy) ∨
           (k ≠ "version_policy" ∧ (k, v) ∈ publish_data)))) := by
  have hnd1 : ((dictSet publish_data "version_policy"
      (PubVal.str version_policy)).map Prod.fst).Nodup :=
    dictSet_keys_nodup hnodup _ _
  have hpurge := purge_datetimes_spec
    (dictSet publish_data "version_policy" (PubVal.str version_policy))
    (dictSet publish_data "version_policy" (PubVal.str version_policy))
    hnd1 hnd1 (fun _ h => h)
  have hfilter_eq :
      (dictSet publish_data "version_policy" (PubVal.str version_policy)).filter
        (fun p => !(decide
          (p ∈ dictSet publish_data "version_policy" (PubVal.str version_policy)) &&
          p.2.isDatetime)) =
      purged_publish_data publish_data version_policy := by
    unfold purged_publish_data
    apply List.filter_congr
    intro p hp
    simp [hp]
  rw [hfilter_eq] at hpurge
  have hnodt : ∀ p ∈ purged_publish_data publish_data version_policy,
      p.2.isDatetime = false := by
    intro p hp
    have := List.mem_filter.mp hp
    simpa using this.2
  have hjson := json_dumps_isSome hnodt
  refine ⟨?_, hjson, ?_⟩
  · cases hj : json_dumps (purged_publish_data publish_data version_policy) with
    | none => rw [hj] at hjson; cases hjson
    | some s =>
      simp only [update_publish_data_parm]
      rw [hpurge]
      simp [hj]
  · intro k v
    unfold purged_publish_data
    rw [List.mem_filter]
    constructor
    · intro ⟨hmem, hvb⟩
      have hdt : v.isDatetime = false := by simpa using hvb
      exact ⟨hdt, (dictSet_mem_iff _ _ _ _).mp hmem⟩
    · intro ⟨hdt, hor⟩
      refine ⟨(dictSet_mem_iff _ _ _ _).mpr hor, by simp [hdt]⟩

open ImportNodeHandler in
/-- C10 witness: the theorem applied to a concrete dictionary holding a string
entry and a datetime entry. -/
theorem C10_witness :
    update_publish_data_parm
        [("name", PubVal.str "x"), ("created_at", PubVal.datetime 0)] "<LATEST>" =
      (json_dumps (purged_publish_data
        [("name", PubVal.str "x"), ("created_at", PubVal.datetime 0)] "<LATEST>")).map
        (fun s => (purged_publish_data
          [("name", PubVal.str "x"), ("created_at", PubVal.datetime 0)] "<LATEST>", s)) ∧
    (json_dumps (purged_publish_data
      [("name", PubVal.str "x"), ("created_at", PubVal.datetime 0)] "<LATEST>")).isSome =
      true :=
  ⟨(C10_update_publish_data_parm
      [("name", PubVal.str "x"), ("created_at", PubVal.datetime 0)] "<LATEST>"
      (by decide)).1,
   (C10_update_publish_data_parm
      [("name", PubVal.str "x"), ("created_at", PubVal.datetime 0)] "<LATEST>"
      (by decide)).2.1⟩

/-! ### ImportNodeHandler._resolve_all_versions_from_path  (claim C4)

Source: hooks/node_handlers/base_import_handler.py, lines 85-87 (the regex
WORK_VERSION_REGEX = v followed by a captured digit run) and 1141-1168.  The
derivation of the glob pattern and the glob itself touch the file system;
following the claim, the glob result is taken as the input list of matched
paths. -/

namespace ImportNodeHandler

/-- Does the list start with a decimal digit? -/
def digitStart : List Char → Bool
  | [] => false
  | d :: _ => d.isDigit

/-- First match of the regex v(\d+) in a character list: the captured digit
run of the leftmost v that is immediately followed by at least one digit. -/
def searchVDigits : List Char → Option (List Char)
  | [] => none
  | c :: cs =>
    if c == 'v' && digitStart cs then some (cs.takeWhile Char.isDigit)
    else searchVDigits cs

/-- One iteration of the version-collection loop: record the integer captured
by the first v(\d+) match of the path, if any.  The Python set of versions is
modelled as a duplicate-free list in first-seen order. -/
def version_step (acc : List Int) (p : String) : List Int :=
  match searchVDigits p.data with
  | some ds =>
    if (natOfDigits ds : Int) ∈ acc then acc else acc ++ [(natOfDigits ds : Int)]
  | none => acc

/-- Embedding of ImportNodeHandler._resolve_all_versions_from_path, taking the
glob results as input. -/
def resolve_all_versions_from_path (glob_results : List String) : List Int :=
  let unique_versions := glob_results.foldl version_step []
  if glob_results ≠ [] ∧ unique_versions = [] then [1] else unique_versions

theorem version_step_nodup {acc : List Int} (h : acc.Nodup) (p : String) :
    (version_step acc p).Nodup := by
  unfold version_step
  cases searchVDigits p.data with
  | none => exact h
  | some ds =>
    dsimp only
    by_cases hmem : (natOfDigits ds : Int) ∈ acc
    · rw [if_pos hmem]
      exact h
    · rw [if_neg hmem]
      simp [List.nodup_append, h, hmem]

theorem foldl_version_step_nodup : ∀ (ps : List String) (acc : List Int), acc.Nodup →
    (ps.foldl version_step acc).Nodup := by
  intro ps
  induction ps with
  | nil => intro acc h; exact h
  | cons p ps ih => intro acc h; exact ih _ (version_step_nodup h p)

theorem version_step_mem (acc : List Int) (p : String) (n : Int) :
    n ∈ version_step acc p ↔
      (n ∈ acc ∨ ∃ ds, searchVDigits p.data = some ds ∧ (natOfDigits ds : Int) = n) := by
  unfold version_step
  cases hs : searchVDigits p.data with
  | none => simp
  | some ds =>
    dsimp only
    by_cases hmem : (natOfDigits ds : Int) ∈ acc
    · rw [if_pos hmem]
      constructor
      · exact fun h => Or.inl h
      · intro h
        rcases h with h | ⟨ds', hds', hn⟩
        · exact h
        · injection hds' with he
          subst he
          subst hn
          exact hmem
    · rw [if_neg hmem]
      rw [List.mem_append, List.mem_singleton]
      constructor
      · intro h
        rcases h with h | h
        · exact Or.inl h
        · exact Or.inr ⟨ds, rfl, h.symm⟩
      · intro h
        rcases h with h | ⟨ds', hds', hn⟩
        · exact Or.inl h
        · injection hds' with he
          subst he
          subst hn
          exact Or.inr rfl

theorem foldl_version_step_mem : ∀ (ps : List String) (acc : List Int) (n : Int),
    n ∈ ps.foldl version_step acc ↔
      (n ∈ acc ∨ ∃ p ∈ ps, ∃ ds, searchVDigits p.data = some ds ∧
        (natOfDigits ds : Int) = n) := by
  intro ps
  induction ps with
  | nil => intro acc n; simp
  | cons p ps ih =>
    intro acc n
    rw [List.foldl_cons, ih, version_step_mem]
    constructor
    · intro h
      rcases h with (h | h) | ⟨q, hq, hds⟩
      · exact Or.inl h
      · exact Or.inr ⟨p, List.mem_cons_self _ _, h⟩
      · exact Or.inr ⟨q, List.mem_cons_of_mem _ hq, hds⟩
    · intro h
      rcases h with h | ⟨q, hq, hds⟩
      · exact Or.inl (Or.inl h)
      · rcases List.mem_cons.mp hq with rfl | hq'
        · exact Or.inl (Or.inr hds)
        · exact Or.inr ⟨q, hq', hds⟩

theorem foldl_version_step_none : ∀ (ps : List String) (acc : List Int),
    (∀ p ∈ ps, searchVDigits p.data = none) → ps.foldl version_step acc = acc := by
  intro ps
  induction ps with
  | nil => intro acc _; rfl
  | cons p ps ih =>
    intro acc h
    rw [List.foldl_cons]
    have hstep : version_step acc p = acc := by
      unfold version_step
      rw [h p (List.mem_cons_self _ _)]
    rw [hstep]
    exact ih acc (fun q hq => h q (List.mem_cons_of_mem _ hq))

end ImportNodeHandler

open ImportNodeHandler in
/-- C4: with the glob modelled by its result list, the function returns the
empty list when the glob yields nothing; returns the single version 1 when the
glob yields paths but none contains a v-digits token; and otherwise returns
exactly the distinct integers captured by the first v(\d+) match of each
matched path, with no duplicates. -/
theorem C4_resolve_all_versions_from_path (glob_results : List String) :
    (glob_results = [] → resolve_all_versions_from_path glob_results = []) ∧
    ((glob_results ≠ [] ∧ ∀ p ∈ glob_results, searchVDigits p.data = none) →
      resolve_all_versions_from_path glob_results = [1]) ∧
    ((∃ p ∈ glob_results, (searchVDigits p.data).isSome = true) →
      ((resolve_all_versions_from_path glob_results).Nodup ∧
       ∀ n : Int, (n ∈ resolve_all_versions_from_path glob_results ↔
         ∃ p ∈ glob_results, ∃ ds, searchVDigits p.data = some ds ∧
           (natOfDigits ds : Int) = n))) := by
  refine ⟨?_, ?_, ?_⟩
  · intro h
    subst h
    rfl
  · intro ⟨hne, hnone⟩
    unfold resolve_all_versions_from_path
    rw [foldl_version_step_none glob_results [] hnone]
    rw [if_pos ⟨hne, rfl⟩]
  · intro ⟨p, hp, hsome⟩
    obtain ⟨ds, hds⟩ := Option.isSome_iff_exists.mp hsome
    have hmem : (natOfDigits ds : Int) ∈ glob_results.foldl version_step [] := by
      rw [foldl_version_step_mem]
      exact Or.inr ⟨p, hp, ds, hds, rfl⟩
    have hne_nil : glob_results.foldl version_step [] ≠ [] := by
      intro h
      rw [h] at hmem
      cases hmem
    have hres : resolve_all_versions_from_path glob_results =
        glob_results.foldl version_step [] := by
      unfold resolve_all_versions_from_path
      rw [if_neg (fun hc => hne_nil hc.2)]
    rw [hres]
    refine ⟨foldl_version_step_nodup glob_results [] List.nodup_nil, ?_⟩
    intro n
    rw [foldl_version_step_mem]
    simp

open ImportNodeHandler in
/-- C4 witness: the theorem applied at three concrete glob results: no paths,
version-free paths, and paths carrying v-digit tokens. -/
theorem C4_witness :
    resolve_all_versions_from_path [] = [] ∧
    resolve_all_versions_from_path ["cache.abc"] = [1] ∧
    (resolve_all_versions_from_path ["a_v01.abc", "a_v02.abc"]).Nodup :=
  ⟨(C4_resolve_all_versions_from_path []).1 rfl,
   (C4_resolve_all_versions_from_path ["cache.abc"]).2.1 (by decide),
   ((C4_resolve_all_versions_from_path ["a_v01.abc", "a_v02.abc"]).2.2 (by decide)).1⟩

/-! ### ImportNodeHandler._replace_version_in_path  (claim C7)

Source: hooks/node_handlers/base_import_handler.py, lines 85-87 and 1170-1187. -/

/-- Does the head of the list satisfy the predicate? -/
def headSat (p : Char → Bool) : List Char → Bool
  | [] => false
  | c :: _ => p c

theorem takeWhile_append_all {p : Char → Bool} : ∀ (l₁ l₂ : List Char),
    l₁.all p = true → headSat p l₂ = false → (l₁ ++ l₂).takeWhile p = l₁ := by
  intro l₁
  induction l₁ with
  | nil =>
    intro l₂ _ h2
    cases l₂ with
    | nil => rfl
    | cons c cs =>
      simp only [headSat] at h2
      simp [List.takeWhile_cons, h2]
  | cons x xs ih =>
    intro l₂ h1 h2
    simp only [List.all_cons, Bool.and_eq_true] at h1
    simp [List.takeWhile_cons, h1.1, ih l₂ h1.2 h2]

theorem dropWhile_append_all {p : Char → Bool} : ∀ (l₁ l₂ : List Char),
    l₁.all p = true → headSat p l₂ = false → (l₁ ++ l₂).dropWhile p = l₂ := by
  intro l₁
  induction l₁ with
  | nil =>
    intro l₂ _ h2
    cases l₂ with
    | nil => rfl
    | cons c cs =>
      simp only [headSat] at h2
      simp [List.dropWhile_cons, h2]
  | cons x xs ih =>
    intro l₂ h1 h2
    simp only [List.all_cons, Bool.and_eq_true] at h1
    simp [List.dropWhile_cons, h1.1, ih l₂ h1.2 h2]

namespace ImportNodeHandler

theorem digitStart_eq_headSat : ∀ l : List Char, digitStart l = headSat Char.isDigit l := by
  intro l
  cases l <;> rfl

/-- Model of Python str.zfill on a character list: left-pad with zeros to the
requested width, keeping a leading sign character in front. -/
def pyZfillL (cs : List Char) (width : Nat) : List Char :=
  if width ≤ cs.length then cs
  else
    match cs with
    | '-' :: rest => '-' :: (List.replicate (width - cs.length) '0' ++ rest)
    | '+' :: rest => '+' :: (List.replicate (width - cs.length) '0' ++ rest)
    | _ => List.replicate (width - cs.length) '0' ++ cs

/-- Model of re.sub of the regex v(\d+) with a fixed replacement string:
replace every non-overlapping leftmost match, resuming after the consumed
digits. -/
def subVAll (repl : List Char) : List Char → List Char
  | [] => []
  | c :: cs =>
    if c == 'v' && digitStart cs then repl ++ subVAll repl (cs.dropWhile Char.isDigit)
    else c :: subVAll repl cs
termination_by l => l.length
decreasing_by
  · simp only [List.length_cons]
    exact Nat.lt_succ_of_le (List.dropWhile_sublist Char.isDigit).length_le
  · simp only [List.length_cons]
    exact Nat.lt_succ_self _

/-- Embedding of ImportNodeHandler._replace_version_in_path. -/
def replace_version_in_path (path : String) (version : Int) : String :=
  match searchVDigits path.data with
  | none => path
  | some current_version =>
    if (natOfDigits current_version : Int) ≠ version then
      ⟨subVAll ('v' :: pyZfillL (pyStrIntL version) current_version.length) path.data⟩
    else path

theorem subVAll_splice (repl : List Char) : ∀ (a ds b : List Char),
    'v' ∉ a → ds ≠ [] → ds.all Char.isDigit = true → digitStart b = false →
    subVAll repl (a ++ 'v' :: (ds ++ b)) = a ++ (repl ++ subVAll repl b) := by
  intro a
  induction a with
  | nil =>
    intro ds b _ hne hdig hb
    have hstart : digitStart (ds ++ b) = true := by
      cases ds with
      | nil => exact absurd rfl hne
      | cons d ds' =>
        simp only [List.all_cons, Bool.and_eq_true] at hdig
        simp [digitStart, hdig.1]
    rw [List.nil_append]
    rw [subVAll]
    rw [show (('v' == 'v') && digitStart (ds ++ b)) = true by rw [hstart]; rfl]
    rw [if_pos rfl]
    rw [dropWhile_append_all ds b hdig (by rw [← digitStart_eq_headSat]; exact hb)]
    rfl
  | cons x a' ih =>
    intro ds b hv hne hdig hb
    have hxv : (x == 'v') = false := by
      cases hxe : x == 'v' with
      | false => rfl
      | true => exact absurd (by rw [beq_iff_eq.mp hxe]; exact List.mem_cons_self _ _) hv
    rw [List.cons_append, subVAll]
    rw [show ((x == 'v') && digitStart (a' ++ 'v' :: (ds ++ b))) = false by rw [hxv]; rfl]
    rw [if_neg (by simp)]
    rw [ih ds b (fun h => hv (List.mem_cons_of_mem _ h)) hne hdig hb]
    rfl

theorem subVAll_no_match (repl : List Char) : ∀ (cs : List Char),
    searchVDigits cs = none → subVAll repl cs = cs := by
  intro cs
  induction cs with
  | nil => intro _; rw [subVAll]
  | cons c cs ih =>
    intro h
    rw [searchVDigits] at h
    by_cases hcond : ((c == 'v') && digitStart cs) = true
    · rw [if_pos hcond] at h
      cases h
    · rw [if_neg hcond] at h
      rw [subVAll, if_neg hcond, ih h]

end ImportNodeHandler

open ImportNodeHandler in
/-- C7: _replace_version_in_path returns the path unchanged when the path has
no v-digits token or when the first token already carries the target version;
otherwise it substitutes, for every v-digits token, the letter v followed by
the target version zero-padded to the width of the first captured digit run
(the splice and no-match conjuncts characterise the substitution itself). -/
theorem C7_replace_version_in_path (path : String) (version : Int) :
    (searchVDigits path.data = none → replace_version_in_path path version = path) ∧
    (∀ ds, searchVDigits path.data = some ds → (natOfDigits ds : Int) = version →
      replace_version_in_path path version = path) ∧
    (∀ ds, searchVDigits path.data = some ds → (natOfDigits ds : Int) ≠ version →
      (replace_version_in_path path version).data =
        subVAll ('v' :: pyZfillL (pyStrIntL version) ds.length) path.data) ∧
    (∀ (repl a ds b : List Char), 'v' ∉ a → ds ≠ [] → ds.all Char.isDigit = true →
      digitStart b = false →
      subVAll repl (a ++ 'v' :: (ds ++ b)) = a ++ (repl ++ subVAll repl b)) ∧
    (∀ (repl cs : List Char), searchVDigits cs = none → subVAll repl cs = cs) := by
  refine ⟨?_, ?_, ?_, fun repl => subVAll_splice repl, fun repl => subVAll_no_match repl⟩
  · intro h
    unfold replace_version_in_path
    rw [h]
  · intro ds hds hv
    unfold replace_version_in_path
    rw [hds]
    dsimp only
    rw [if_neg (by simpa using hv)]
  · intro ds hds hv
    unfold replace_version_in_path
    rw [hds]
    dsimp only
    rw [if_pos hv]

open ImportNodeHandler in
/-- C7 witness: the theorem applied at concrete paths: a version-free path, a
path already at the target version, a path needing substitution, and a
concrete splice. -/
theorem C7_witness :
    replace_version_in_path "cache.abc" 2 = "cache.abc" ∧
    replace_version_in_path "a_v02.abc" 2 = "a_v02.abc" ∧
    (replace_version_in_path "a_v02.abc" 3).data =
      subVAll ('v' :: pyZfillL (pyStrIntL 3) 2) "a_v02.abc".data ∧
    subVAll ['X'] ("img_".data ++ 'v' :: (['0', '1'] ++ "_x".data)) =
      "img_".data ++ (['X'] ++ subVAll ['X'] "_x".data) :=
  ⟨(C7_replace_version_in_path "cache.abc" 2).1 (by decide),
   (C7_replace_version_in_path "a_v02.abc" 2).2.1 ['0', '2'] (by decide) (by decide),
   (C7_replace_version_in_path "a_v02.abc" 3).2.2.1 ['0', '2'] (by decide) (by decide),
   (C7_replace_version_in_path "a" 0).2.2.2.1 ['X'] "img_".data ['0', '1'] "_x".data
     (by decide) (by decide) (by decide) (by decide)⟩

/-! ### ImportNodeHandler._convert_path_to_houdini_seq  (claim C6)

Source: hooks/node_handlers/base_import_handler.py, lines 563-589.  The
pattern has two alternatives: a dot, a non-empty run of @ or # characters and
a dot; or a dot, two characters of the class percent-zero-dollar-F, a digit,
an optional letter d and a dot.  Every match is replaced by dot-dollar-F
followed by the pad (the length of the symbol run, or the captured digit) and
a dot. -/

namespace ImportNodeHandler

def isSeqSymbol (c : Char) : Bool := c == '@' || c == '#'

def isPadClassChar (c : Char) : Bool := c == '%' || c == '0' || c == '$' || c == 'F'

/-- Match of the second alternative after its leading dot: two class
characters, a digit, an optional letter d, then a dot.  On success, returns
the pad text (the captured digit) and the remainder after the match. -/
def matchPad : List Char → Option (List Char × List Char)
  | c1 :: c2 :: d :: tail =>
    if isPadClassChar c1 && isPadClassChar c2 && d.isDigit then
      match tail with
      | e :: es =>
        if e == 'd' then
          match es with
          | f :: after => if f == '.' then some ([d], after) else none
          | [] => none
        else if e == '.' then some ([d], es)
        else none
      | [] => none
    else none
  | _ => none

/-- Match of the whole token pattern at the start of the list: a dot, then the
preferred symbol-run alternative, falling back to the second alternative.  On
success, returns the pad text and the remainder after the consumed match. -/
def matchToken : List Char → Option (List Char × List Char)
  | [] => none
  | c :: rest =>
    if c == '.' then
      if (rest.takeWhile isSeqSymbol).isEmpty then matchPad rest
      else
        match rest.dropWhile isSeqSymbol with
        | e :: after =>
          if e == '.' then some (natDigits (rest.takeWhile isSeqSymbol).length, after)
          else matchPad rest
        | [] => matchPad rest
    else none

theorem matchPad_length : ∀ (l pad rest : List Char), matchPad l = some (pad, rest) →
    rest.length < l.length := by
  intro l pad rest h
  rcases l with _ | ⟨c1, _ | ⟨c2, _ | ⟨d, tail⟩⟩⟩
  · cases h
  · cases h
  · cases h
  · unfold matchPad at h
    dsimp only at h
    by_cases hcls : (isPadClassChar c1 && isPadClassChar c2 && d.isDigit) = true
    · rw [if_pos hcls] at h
      rcases tail with _ | ⟨e, es⟩
      · cases h
      · dsimp only at h
        by_cases hed : (e == 'd') = true
        · rw [if_pos hed] at h
          rcases es with _ | ⟨f, after⟩
          · cases h
          · dsimp only at h
            by_cases hf : (f == '.') = true
            · rw [if_pos hf] at h
              injection h with h1
              injection h1 with h2 h3
              subst h3
              simp only [List.length_cons]
              omega
            · rw [if_neg hf] at h
              cases h
        · rw [if_neg hed] at h
          by_cases hep : (e == '.') = true
          · rw [if_pos hep] at h
            injection h with h1
            injection h1 with h2 h3
            subst h3
            simp only [List.length_cons]
            omega
          · rw [if_neg hep] at h
            cases h
    · rw [if_neg hcls] at h
      cases h

theorem matchToken_length : ∀ (l pad rest : List Char), matchToken l = some (pad, rest) →
    rest.length < l.length := by
  intro l pad rest h
  rcases l with _ | ⟨c, tl⟩
  · cases h
  · unfold matchToken at h
    dsimp only at h
    by_cases hdot : (c == '.') = true
    · rw [if_pos hdot] at h
      have hup : rest.length < tl.length → rest.length < (c :: tl).length := by
        intro hlt
        simp only [List.length_cons]
        omega
      by_cases hemp : (tl.takeWhile isSeqSymbol).isEmpty = true
      · rw [if_pos hemp] at h
        exact hup (matchPad_length tl pad rest h)
      · rw [if_neg hemp] at h
        cases hdw : tl.dropWhile isSeqSymbol with
        | nil =>
          rw [hdw] at h
          exact hup (matchPad_length tl pad rest h)
        | cons e after =>
          rw [hdw] at h
          dsimp only at h
          by_cases hep : (e == '.') = true
          · rw [if_pos hep] at h
            injection h with h1
            injection h1 with h2 h3
            subst h3
            have hlen : (e :: after).length ≤ tl.length := by
              rw [← hdw]
              exact (List.dropWhile_sublist isSeqSymbol).length_le
            simp only [List.length_cons] at hlen ⊢
            omega
          · rw [if_neg hep] at h
            exact hup (matchPad_length tl pad rest h)
    · rw [if_neg hdot] at h
      cases h

/-- The replacement scan of re.sub: at each position, try to match the token;
on a match, emit dot-dollar-F, the pad and a dot, and continue after the
match; otherwise keep the character and move on. -/
def convCore : List Char → List Char
  | [] => []
  | c :: cs =>
    match h : matchToken (c :: cs) with
    | some (pad, rest) => '.' :: '$' :: 'F' :: (pad ++ '.' :: convCore rest)
    | none => c :: convCore cs
termination_by l => l.length
decreasing_by
  · exact matchToken_length _ _ _ h
  · simp only [List.length_cons]
    exact Nat.lt_succ_self _

/-- Embedding of ImportNodeHandler._convert_path_to_houdini_seq. -/
def convert_path_to_houdini_seq (path : String) : String := ⟨convCore path.data⟩

/-- Does any position of the list start a token match? -/
def hasToken : List Char → Bool
  | [] => false
  | c :: cs => (matchToken (c :: cs)).isSome || hasToken cs

theorem convCore_of_hasToken_false : ∀ cs : List Char, hasToken cs = false →
    convCore cs = cs := by
  intro cs
  induction cs with
  | nil => intro _; rw [convCore]
  | cons c cs ih =>
    intro h
    rw [hasToken, Bool.or_eq_false_iff] at h
    have hnone : matchToken (c :: cs) = none := by
      cases hm : matchToken (c :: cs) with
      | none => rfl
      | some v =>
        rw [hm] at h
        cases h.1
    rw [convCore, hnone]
    rw [ih h.2]

theorem matchToken_not_dot {c : Char} (cs : List Char) (h : (c == '.') = false) :
    matchToken (c :: cs) = none := by
  unfold matchToken
  dsimp only
  rw [if_neg (by rw [h]; exact Bool.false_ne_true)]

theorem convCore_splice : ∀ (a t b pad : List Char), '.' ∉ a →
    matchToken t = some (pad, b) →
    convCore (a ++ t) = a ++ ('.' :: '$' :: 'F' :: (pad ++ '.' :: convCore b)) := by
  intro a
  induction a with
  | nil =>
    intro t b pad _ hm
    rcases t with _ | ⟨c, cs⟩
    · cases hm
    · rw [List.nil_append, convCore, hm]
      rfl
  | cons x a' ih =>
    intro t b pad hx hm
    have hxd : (x == '.') = false := by
      cases hxe : x == '.' with
      | false => rfl
      | true => exact absurd (by rw [beq_iff_eq.mp hxe]; exact List.mem_cons_self _ _) hx
    rw [List.cons_append, convCore, matchToken_not_dot _ hxd]
    rw [ih t b pad (fun hmem => hx (List.mem_cons_of_mem _ hmem)) hm]
    rfl

theorem isPadClassChar_not_seq {c : Char} (h : isPadClassChar c = true) :
    isSeqSymbol c = false := by
  have : c = '%' ∨ c = '0' ∨ c = '$' ∨ c = 'F' := by
    simpa [isPadClassChar, beq_iff_eq, or_assoc] using h
  rcases this with rfl | rfl | rfl | rfl <;> rfl

theorem matchToken_symbols (syms b : List Char) (hne : syms ≠ [])
    (hall : syms.all isSeqSymbol = true) :
    matchToken ('.' :: (syms ++ '.' :: b)) = some (natDigits syms.length, b) := by
  have hhead : headSat isSeqSymbol ('.' :: b) = false := by rfl
  have htake : (syms ++ '.' :: b).takeWhile isSeqSymbol = syms :=
    takeWhile_append_all syms ('.' :: b) hall hhead
  have hdrop : (syms ++ '.' :: b).dropWhile isSeqSymbol = '.' :: b :=
    dropWhile_append_all syms ('.' :: b) hall hhead
  unfold matchToken
  dsimp only
  rw [if_pos (show ('.' == '.') = true from rfl), htake, hdrop]
  rw [if_neg (by simpa [List.isEmpty_iff] using hne)]
  dsimp only
  rw [if_pos (show ('.' == '.') = true from rfl)]

theorem matchToken_pad (c1 c2 d : Char) (b : List Char) (h1 : isPadClassChar c1 = true)
    (h2 : isPadClassChar c2 = true) (hd : d.isDigit = true) :
    matchToken ('.' :: c1 :: c2 :: d :: '.' :: b) = some ([d], b) ∧
    matchToken ('.' :: c1 :: c2 :: d :: 'd' :: '.' :: b) = some ([d], b) := by
  have hc1 : isSeqSymbol c1 = false := isPadClassChar_not_seq h1
  have htake : ∀ l : List Char, (c1 :: l).takeWhile isSeqSymbol = [] := by
    intro l
    rw [List.takeWhile_cons, if_neg (by rw [hc1]; exact Bool.false_ne_true)]
  constructor
  · unfold matchToken
    dsimp only
    rw [if_pos (show ('.' == '.') = true from rfl), htake,
      if_pos (show (List.isEmpty ([] : List Char)) = true from rfl)]
    unfold matchPad
    dsimp only
    rw [if_pos (by rw [h1, h2, hd]; rfl)]
    rw [if_neg (by decide), if_pos (show ('.' == '.') = true from rfl)]
  · unfold matchToken
    dsimp only
    rw [if_pos (show ('.' == '.') = true from rfl), htake,
      if_pos (show (List.isEmpty ([] : List Char)) = true from rfl)]
    unfold matchPad
    dsimp only
    rw [if_pos (by rw [h1, h2, hd]; rfl)]
    rw [if_pos (show ('d' == 'd') = true from rfl)]
    try dsimp only
    rw [if_pos (show ('.' == '.') = true from rfl)]

end ImportNodeHandler

open ImportNodeHandler in
/-- C6: _convert_path_to_houdini_seq leaves a path without frame tokens
unchanged; a dot-delimited run of @ or # symbols is replaced by the
dollar-F form padded with the length of the run; and a dot-delimited
printf/Houdini-style token (two class characters, a digit, an optional letter
d) is replaced by the dollar-F form carrying its padding digit.  The prefix
before each token is kept as long as it contains no dot (a token always starts
at a dot). -/
theorem C6_convert_path_to_houdini_seq (path : String) :
    (hasToken path.data = false → convert_path_to_houdini_seq path = path) ∧
    (∀ (a syms b : List Char), '.' ∉ a → syms ≠ [] → syms.all isSeqSymbol = true →
      convCore (a ++ '.' :: (syms ++ '.' :: b)) =
        a ++ ('.' :: '$' :: 'F' :: (natDigits syms.length ++ '.' :: convCore b))) ∧
    (∀ (a : List Char) (c1 c2 d : Char) (b : List Char), '.' ∉ a →
      isPadClassChar c1 = true → isPadClassChar c2 = true → d.isDigit = true →
      (convCore (a ++ '.' :: c1 :: c2 :: d :: '.' :: b) =
        a ++ ('.' :: '$' :: 'F' :: ([d] ++ '.' :: convCore b)) ∧
       convCore (a ++ '.' :: c1 :: c2 :: d :: 'd' :: '.' :: b) =
        a ++ ('.' :: '$' :: 'F' :: ([d] ++ '.' :: convCore b)))) := by
  refine ⟨?_, ?_, ?_⟩
  · intro h
    unfold convert_path_to_houdini_seq
    rw [convCore_of_hasToken_false path.data h]
  · intro a syms b ha hne hall
    exact convCore_splice a ('.' :: (syms ++ '.' :: b)) b (natDigits syms.length) ha
      (matchToken_symbols syms b hne hall)
  · intro a c1 c2 d b ha h1 h2 hd
    constructor
    · exact convCore_splice a ('.' :: c1 :: c2 :: d :: '.' :: b) b [d] ha
        (matchToken_pad c1 c2 d b h1 h2 hd).1
    · exact convCore_splice a ('.' :: c1 :: c2 :: d :: 'd' :: '.' :: b) b [d] ha
        (matchToken_pad c1 c2 d b h1 h2 hd).2

open ImportNodeHandler in
/-- C6 witness: the theorem applied at a token-free path, at a hash-run token
and at a percent-style token, with concrete characters. -/
theorem C6_witness :
    convert_path_to_houdini_seq "cache_abc" = "cache_abc" ∧
    convCore ("img".data ++ '.' :: (['#', '#', '#', '#'] ++ '.' :: "exr".data)) =
      "img".data ++ ('.' :: '$' :: 'F' :: (natDigits 4 ++ '.' :: convCore "exr".data)) ∧
    convCore ("img".data ++ '.' :: '%' :: '0' :: '4' :: 'd' :: '.' :: "exr".data) =
      "img".data ++ ('.' :: '$' :: 'F' :: (['4'] ++ '.' :: convCore "exr".data)) :=
  ⟨(C6_convert_path_to_houdini_seq "cache_abc").1 (by decide),
   (C6_convert_path_to_houdini_seq "x").2.1 "img".data ['#', '#', '#', '#'] "exr".data
     (by decide) (by decide) (by decide),
   ((C6_convert_path_to_houdini_seq "x").2.2 "img".data '%' '0' '4' "exr".data
     (by decide) (by decide) (by decide) (by decide)).2⟩

/-! ### ExportNodeHandler._refresh_file_path  (claim C2)

Source: hooks/node_handlers/base_export_handler.py, lines 56 and 348-394,
with _update_template_fields (257-283), _update_optional_keys (285-301) and
_update_all_versions (303-313); _get_all_versions and _populate_versions come
from node_handler_base.py (447-473).

The two sgtk calls whose behaviour depends on the ShotGrid configuration are
taken as inputs: fieldsResult is the outcome of
context.as_template_fields(template, validate=True) and applyFields is the
behaviour of template.apply_fields; an error value models a raised
sgtk.TankError.  _resolve_all_versions_from_fields is called but not defined
anywhere under src (its glob-based directory scan belongs to the repository
code outside src), so, modelled from the spec (glob-based directory
scanning), it enters only through its result, the parameter
resolveAllVersions.  The version menu parameter evaluates to the token at its
current index, clamped into the menu range, where the tokens are the values
(even positions) of the populate_versions menu list. -/

namespace ExportNodeHandler

/-- A lockable Houdini parameter: setting a locked parameter raises
hou.PermissionError, which is why the code unlocks before setting. -/
structure LockableParm where
  value : String
  locked : Bool
deriving DecidableEq

/-- The exceptions distinguished by the refresh flow. -/
inductive PyErr where
  | tankError : PyErr
  | valueError : PyErr
  | permissionError : PyErr
  | operationFailed : PyErr
deriving DecidableEq

def LockableParm.set (p : LockableParm) (v : String) : Except PyErr LockableParm :=
  if p.locked then Except.error PyErr.permissionError
  else Except.ok { p with value := v }

def LockableParm.lock (p : LockableParm) (state : Bool) : LockableParm :=
  { p with locked := state }

/-- A template field value: a string, an integer, or Python None. -/
inductive FieldVal where
  | str : String → FieldVal
  | int : Int → FieldVal
  | none_ : FieldVal
deriving DecidableEq

/-- Template fields as an insertion-ordered dict. -/
abbrev Fields := List (String × FieldVal)

def fieldsSet (fields : Fields) (k : String) (v : FieldVal) : Fields :=
  if fields.any (fun p => p.1 == k) then
    fields.map (fun p => if p.1 == k then (k, v) else p)
  else fields ++ [(k, v)]

def fieldsGet (fields : Fields) (k : String) : Option FieldVal :=
  (fields.find? (fun p => p.1 == k)).map Prod.snd

/-- Truthiness of a field value, for the `if field` test of
_update_optional_keys. -/
def FieldVal.truthy : FieldVal → Bool
  | FieldVal.str s => !s.isEmpty
  | FieldVal.int i => !(i == 0)
  | FieldVal.none_ => false

/-- The node parameters touched by _refresh_file_path, plus the node name. -/
structure ExportNodeState where
  name : String
  output : LockableParm
  sgtk_element : String
  sgtk_location : String
  sgtk_variation : String
  sgtk_optional_keys : String
  sgtk_all_versions : String
  sgtk_version_index : Nat
  sgtk_using_next_version : Bool
  sgtk_resolved_version : String
deriving DecidableEq

/-- The values at the even positions of a list (the version-menu item list
alternates menu value and menu label, and menuItems() returns the values). -/
def evenEntries {α : Type} : List α → List α
  | [] => []
  | [x] => [x]
  | x :: _ :: rest => x :: evenEntries rest

/-- menuItems() of the version menu parameter: the values of the menu list
generated by the populate_versions callback. -/
def menu_items (st : ExportNodeState) : Except PyErr (List String) :=
  match NodeHandlerBase.populate_versions VERSION_POLICIES st.sgtk_all_versions with
  | none => Except.error PyErr.valueError
  | some menu => Except.ok (evenEntries menu)

/-- evalAsString() on the version menu parameter: the token at the current
index, clamped into the menu range. -/
def eval_version (st : ExportNodeState) : Except PyErr String := do
  let items ← menu_items st
  pure (items.getD (min st.sgtk_version_index (items.length - 1)) "")

/-- parm.set(token) on the version menu parameter: selects the index of the
token; an unknown token raises hou.OperationFailed. -/
def set_version_str (st : ExportNodeState) (tok : String) : Except PyErr ExportNodeState := do
  let items ← menu_items st
  if tok ∈ items then
    pure { st with sgtk_version_index := items.indexOf tok }
  else
    Except.error PyErr.operationFailed

/-- Embedding of ExportNodeHandler._update_template_fields. -/
def update_template_fields (st : ExportNodeState) (fields : Fields) :
    ExportNodeState × Fields :=
  let fields := fieldsSet fields "node" (FieldVal.str st.name)
  let fields := fieldsSet fields "SEQ" (FieldVal.str "FORMAT: $F")
  let name := pyStrip st.sgtk_element
  let st :=
    if name.isEmpty then { st with sgtk_location := "", sgtk_variation := "" } else st
  let fields := if name.isEmpty then fields else fieldsSet fields "name" (FieldVal.str name)
  let location := pyStrip st.sgtk_location
  let fields := fieldsSet fields "location"
    (if location.isEmpty then FieldVal.none_ else FieldVal.str location)
  let variation := pyStrip st.sgtk_variation
  let fields := fieldsSet fields "variation"
    (if variation.isEmpty then FieldVal.none_ else FieldVal.str variation)
  (st, fields)

def dumpsFieldVal : FieldVal → String
  | FieldVal.str s => "\"" ++ s ++ "\""
  | FieldVal.int i => pyStrInt i
  | FieldVal.none_ => "null"

def dumpsFields (fields : Fields) : String :=
  "\x7b" ++
    (⟨joinCommaL ((fields.map
      (fun p => "\"" ++ p.1 ++ "\": " ++ dumpsFieldVal p.2)).map String.data)⟩ : String) ++
    "\x7d"

/-- Embedding of ExportNodeHandler._update_optional_keys; the optional keys of
the work template are the input optionalKeys. -/
def update_optional_keys (optionalKeys : List String) (st : ExportNodeState)
    (fields : Fields) : ExportNodeState :=
  let optional_fields := optionalKeys.foldl (fun acc key_name =>
    match fieldsGet fields key_name with
    | some field => if field.truthy then acc ++ [(key_name, field)] else acc
    | none => acc) []
  { st with sgtk_optional_keys := dumpsFields optional_fields }

/-- Embedding of ExportNodeHandler._update_all_versions. -/
def update_all_versions (st : ExportNodeState) (all_versions : List Int) :
    Except PyErr ExportNodeState :=
  match NodeHandlerBase.get_all_versions st.sgtk_all_versions with
  | none => Except.error PyErr.valueError
  | some cur =>
    if all_versions ≠ cur then
      Except.ok { st with sgtk_all_versions :=
        ⟨joinCommaL ((all_versions.map pyStrInt).map String.data)⟩ }
    else Except.ok st

/-- Embedding of ExportNodeHandler._refresh_file_path. -/
def refresh_file_path (fieldsResult : Except Unit Fields)
    (applyFields : Fields → Except Unit String)
    (resolveAllVersions : Fields → List Int) (optionalKeys : List String)
    (st : ExportNodeState) : Except PyErr ExportNodeState := do
  match fieldsResult with
  | Except.error _ => Except.error PyErr.tankError
  | Except.ok fields =>
    let stf := update_template_fields st fields
    let st := stf.1
    let fields := stf.2
    let st := update_optional_keys optionalKeys st fields
    let all_versions := resolveAllVersions fields
    let value_before_update ← eval_version st
    let st ← update_all_versions st all_versions
    let current ← eval_version st
    let items ← menu_items st
    let current := if value_before_update ∈ items then value_before_update else current
    let st ← set_version_str st current
    let using_next := decide (current ∈ VERSION_POLICIES)
    -- the using-next parm exists on every export node, so the if branch runs
    let st := { st with sgtk_using_next_version := using_next }
    let st := if st.sgtk_using_next_version then
        { st with sgtk_version_index := all_versions.length }
      else st
    let current ← eval_version st
    let resolved_version ← match resolve_version all_versions current with
      | none => Except.error PyErr.valueError
      | some r => pure r
    let st := { st with sgtk_resolved_version := pyStrInt resolved_version }
    let fields := fieldsSet fields "version" (FieldVal.int resolved_version)
    let new_path ← match applyFields fields with
      | Except.ok p => pure p
      | Except.error _ => pure DEFAULT_ERROR_STRING
    let st := { st with output := st.output.lock false }
    let output ← st.output.set new_path
    let st := { st with output := output }
    pure { st with output := st.output.lock true }

theorem except_bind_ok {ε α β : Type} (a : α) (f : α → Except ε β) :
    (Except.ok a >>= f) = f a := rfl

theorem except_bind_pure {ε α β : Type} (a : α) (f : α → Except ε β) :
    ((pure a : Except ε α) >>= f) = f a := rfl

theorem evenEntries_dupEach {α : Type} : ∀ l : List α, evenEntries (dupEach l) = l := by
  intro l
  induction l with
  | nil => rfl
  | cons x xs ih =>
    rw [dupEach]
    rw [show evenEntries (x :: x :: dupEach xs) = x :: evenEntries (dupEach xs) from rfl, ih]

theorem menu_items_spec {st : ExportNodeState} {vs : List Int}
    (h : NodeHandlerBase.get_all_versions st.sgtk_all_versions = some vs) :
    menu_items st = Except.ok (vs.map pyStrInt ++ VERSION_POLICIES) := by
  unfold menu_items
  rw [populate_versions_spec VERSION_POLICIES h]
  dsimp only
  rw [evenEntries_dupEach]

theorem eval_version_spec {st : ExportNodeState} {vs : List Int}
    (h : NodeHandlerBase.get_all_versions st.sgtk_all_versions = some vs) :
    eval_version st = Except.ok ((vs.map pyStrInt ++ VERSION_POLICIES).getD
      (min st.sgtk_version_index ((vs.map pyStrInt ++ VERSION_POLICIES).length - 1)) "") := by
  unfold eval_version
  rw [menu_items_spec h]
  rfl

theorem getD_min_mem {l : List String} (hl : 0 < l.length) (n : Nat) :
    l.getD (min n (l.length - 1)) "" ∈ l := by
  have hlt : min n (l.length - 1) < l.length := by omega
  rw [List.getD_eq_getElem l "" hlt]
  exact List.getElem_mem hlt

theorem items_length_pos (vs : List Int) :
    0 < (vs.map pyStrInt ++ VERSION_POLICIES).length := by
  simp [VERSION_POLICIES]

theorem set_version_str_spec {st : ExportNodeState} {vs : List Int}
    (h : NodeHandlerBase.get_all_versions st.sgtk_all_versions = some vs) {tok : String}
    (htok : tok ∈ vs.map pyStrInt ++ VERSION_POLICIES) :
    set_version_str st tok = Except.ok { st with
      sgtk_version_index := (vs.map pyStrInt ++ VERSION_POLICIES).indexOf tok } := by
  have h1 : set_version_str st tok =
      if tok ∈ vs.map pyStrInt ++ VERSION_POLICIES then
        Except.ok { st with
          sgtk_version_index := (vs.map pyStrInt ++ VERSION_POLICIES).indexOf tok }
      else Except.error PyErr.operationFailed := by
    unfold set_version_str
    rw [menu_items_spec h]
    rfl
  rw [h1, if_pos htok]

theorem update_all_versions_spec {st : ExportNodeState} {vs : List Int}
    (h : NodeHandlerBase.get_all_versions st.sgtk_all_versions = some vs)
    (avs : List Int) :
    update_all_versions st avs = Except.ok (if avs ≠ vs then
      { st with sgtk_all_versions :=
        ⟨joinCommaL ((avs.map pyStrInt).map String.data)⟩ } else st) := by
  unfold update_all_versions
  rw [h]
  dsimp only
  by_cases hne : avs ≠ vs
  · rw [if_pos hne, if_pos hne]
  · rw [if_neg hne, if_neg hne]

theorem update_all_versions_state_parses {st : ExportNodeState} {vs : List Int}
    (h : NodeHandlerBase.get_all_versions st.sgtk_all_versions = some vs)
    (avs : List Int) :
    NodeHandlerBase.get_all_versions (if avs ≠ vs then
      { st with sgtk_all_versions :=
        ⟨joinCommaL ((avs.map pyStrInt).map String.data)⟩ } else st).sgtk_all_versions =
      some avs := by
  by_cases hne : avs ≠ vs
  · rw [if_pos hne]
    exact get_all_versions_join avs
  · rw [if_neg hne]
    rw [not_not] at hne
    rw [h, hne]

theorem update_template_fields_state (st : ExportNodeState) (f : Fields) :
    (update_template_fields st f).1.sgtk_all_versions = st.sgtk_all_versions ∧
    (update_template_fields st f).1.output = st.output ∧
    (update_template_fields st f).1.sgtk_version_index = st.sgtk_version_index := by
  unfold update_template_fields
  by_cases h : (pyStrip st.sgtk_element).isEmpty = true <;> simp [h]

theorem pyStrInt_ne_NEXT (v : Int) : pyStrInt v ≠ NEXT_VERSION_STR := by
  intro h
  have hd : pyStrIntL v = NEXT_VERSION_STR.data := congrArg String.data h
  have hmem : '<' ∈ pyStrIntL v := by
    rw [hd]
    decide
  exact not_mem_pyStrIntL (by decide) (by decide) v hmem

theorem resolve_version_of_mem_items {avs : List Int} {tok : String}
    (htok : tok ∈ avs.map pyStrInt ++ VERSION_POLICIES) :
    ∃ r : Int, resolve_version avs tok = some r := by
  rcases List.mem_append.mp htok with hmem | hpol
  · obtain ⟨v, _, rfl⟩ := List.mem_map.mp hmem
    rw [resolve_version_parse avs (pyStrInt_ne_NEXT v) (pyInt_pyStrInt v)]
    by_cases hm : v ∈ avs ++ [pyMaxOrZero avs + 1]
    · rw [if_neg (not_not_intro hm)]
      exact ⟨v, rfl⟩
    · rw [if_pos hm]
      exact ⟨_, rfl⟩
  · have htok' : tok = NEXT_VERSION_STR := by simpa [VERSION_POLICIES] using hpol
    subst htok'
    exact ⟨_, resolve_version_next avs⟩

theorem fieldsGet_set_map : ∀ (fields : Fields) (k : String) (v : FieldVal),
    fields.any (fun p => p.1 == k) = true →
    (fields.map (fun p => if p.1 == k then (k, v) else p)).find? (fun p => p.1 == k) =
      some (k, v) := by
  intro fields k v
  induction fields with
  | nil => intro h; cases h
  | cons q qs ih =>
    intro hany
    rw [List.map_cons]
    by_cases hq : (q.1 == k) = true
    · rw [if_pos hq]
      exact List.find?_cons_of_pos _ (by simp)
    · rw [if_neg hq]
      rw [List.find?_cons_of_neg _ (by simpa using hq)]
      apply ih
      rw [List.any_cons] at hany
      rcases (Bool.or_eq_true _ _).mp hany with hl | hr
      · exact absurd hl hq
      · exact hr

theorem find?_append_of_none {p : String × FieldVal → Bool} :
    ∀ (l₁ l₂ : List (String × FieldVal)), l₁.find? p = none →
    (l₁ ++ l₂).find? p = l₂.find? p := by
  intro l₁
  induction l₁ with
  | nil => intro l₂ _; rfl
  | cons a l ih =>
    intro l₂ h
    rw [List.find?_eq_none] at h
    rw [List.cons_append,
      List.find?_cons_of_neg _ (by simpa using h a (List.mem_cons_self a l))]
    apply ih
    rw [List.find?_eq_none]
    intro x hx
    exact h x (List.mem_cons_of_mem a hx)

theorem fieldsGet_fieldsSet (fields : Fields) (k : String) (v : FieldVal) :
    fieldsGet (fieldsSet fields k v) k = some v := by
  unfold fieldsSet fieldsGet
  by_cases hany : fields.any (fun p => p.1 == k) = true
  · rw [if_pos hany, fieldsGet_set_map fields k v hany]
    rfl
  · rw [if_neg hany]
    have hnone : fields.find? (fun p => p.1 == k) = none := by
      rw [List.find?_eq_none]
      intro x hx hpx
      exact hany (List.any_eq_true.mpr ⟨x, hx, hpx⟩)
    rw [find?_append_of_none fields [(k, v)] hnone]
    rw [List.find?_cons_of_pos _ (by simp)]
    rfl

theorem set_after_unlock (p : LockableParm) (v : String) :
    (p.lock false).set v = Except.ok ⟨v, false⟩ := rfl

/-- Successful run of _refresh_file_path: when the template fields resolve and
the stored version list parses, the whole flow completes, the output parm ends
locked, and its value is the applied-fields path, or the default error string
exactly when apply_fields raised TankError. -/
theorem refresh_file_path_run (applyFields : Fields → Except Unit String)
    (resolveAllVersions : Fields → List Int) (optionalKeys : List String)
    (st : ExportNodeState) (f0 : Fields) (vs0 : List Int)
    (hparse : NodeHandlerBase.get_all_versions st.sgtk_all_versions = some vs0) :
    ∃ (st' : ExportNodeState) (fs : Fields) (r : Int),
      refresh_file_path (Except.ok f0) applyFields resolveAllVersions optionalKeys st =
        Except.ok st' ∧
      st'.output.locked = true ∧
      fieldsGet fs "version" = some (FieldVal.int r) ∧
      ((applyFields fs = Except.ok st'.output.value) ∨
       (applyFields fs = Except.error () ∧ st'.output.value = DEFAULT_ERROR_STRING)) := by
  unfold refresh_file_path
  dsimp only
  set st1 := update_optional_keys optionalKeys (update_template_fields st f0).1
    (update_template_fields st f0).2 with hst1def
  set avs := resolveAllVersions (update_template_fields st f0).2 with havsdef
  have hparse1 : NodeHandlerBase.get_all_versions st1.sgtk_all_versions = some vs0 := by
    have h1 : st1.sgtk_all_versions = (update_template_fields st f0).1.sgtk_all_versions := by
      rw [hst1def]
      rfl
    rw [h1, (update_template_fields_state st f0).1, hparse]
  simp only [eval_version_spec hparse1, except_bind_ok]
  simp only [update_all_versions_spec hparse1 avs, except_bind_ok]
  set st2 := (if avs ≠ vs0 then { st1 with sgtk_all_versions :=
    ⟨joinCommaL ((avs.map pyStrInt).map String.data)⟩ } else st1) with hst2def
  have hparse2 : NodeHandlerBase.get_all_versions st2.sgtk_all_versions = some avs := by
    rw [hst2def]
    exact update_all_versions_state_parses hparse1 avs
  simp only [eval_version_spec hparse2, menu_items_spec hparse2, except_bind_ok]
  set tok0 := (vs0.map pyStrInt ++ VERSION_POLICIES).getD
    (min st1.sgtk_version_index ((vs0.map pyStrInt ++ VERSION_POLICIES).length - 1)) ""
    with htok0def
  set tok2 := (avs.map pyStrInt ++ VERSION_POLICIES).getD
    (min st2.sgtk_version_index ((avs.map pyStrInt ++ VERSION_POLICIES).length - 1)) ""
    with htok2def
  set cur := (if tok0 ∈ avs.map pyStrInt ++ VERSION_POLICIES then tok0 else tok2)
    with hcurdef
  have hcur_mem : cur ∈ avs.map pyStrInt ++ VERSION_POLICIES := by
    rw [hcurdef]
    by_cases hm : tok0 ∈ avs.map pyStrInt ++ VERSION_POLICIES
    · rw [if_pos hm]
      exact hm
    · rw [if_neg hm, htok2def]
      exact getD_min_mem (items_length_pos avs) _
  simp only [set_version_str_spec hparse2 hcur_mem, except_bind_ok]
  set st5 := (if ({ { st2 with sgtk_version_index :=
      (avs.map pyStrInt ++ VERSION_POLICIES).indexOf cur } with
      sgtk_using_next_version := decide (cur ∈ VERSION_POLICIES) }).sgtk_using_next_version
    then { { { st2 with sgtk_version_index :=
      (avs.map pyStrInt ++ VERSION_POLICIES).indexOf cur } with
      sgtk_using_next_version := decide (cur ∈ VERSION_POLICIES) } with
      sgtk_version_index := avs.length }
    else { { st2 with sgtk_version_index :=
      (avs.map pyStrInt ++ VERSION_POLICIES).indexOf cur } with
      sgtk_using_next_version := decide (cur ∈ VERSION_POLICIES) }) with hst5def
  have hfield5 : st5.sgtk_all_versions = st2.sgtk_all_versions := by
    rw [hst5def]
    by_cases hb : ({ { st2 with sgtk_version_index :=
        (avs.map pyStrInt ++ VERSION_POLICIES).indexOf cur } with
        sgtk_using_next_version := decide (cur ∈ VERSION_POLICIES) }).sgtk_using_next_version = true
    · rw [if_pos hb]
    · rw [if_neg hb]
  have hparse5 : NodeHandlerBase.get_all_versions st5.sgtk_all_versions = some avs := by
    rw [hfield5]
    exact hparse2
  simp only [eval_version_spec hparse5, except_bind_ok]
  set cur5 := (avs.map pyStrInt ++ VERSION_POLICIES).getD
    (min st5.sgtk_version_index ((avs.map pyStrInt ++ VERSION_POLICIES).length - 1)) ""
    with hcur5def
  have hcur5_mem : cur5 ∈ avs.map pyStrInt ++ VERSION_POLICIES := by
    rw [hcur5def]
    exact getD_min_mem (items_length_pos avs) _
  obtain ⟨r, hr⟩ := resolve_version_of_mem_items hcur5_mem
  simp only [hr, except_bind_pure]
  cases happ : applyFields (fieldsSet (update_template_fields st f0).2 "version"
      (FieldVal.int r)) with
  | ok p =>
    simp only [happ, except_bind_pure, set_after_unlock, except_bind_ok]
    refine ⟨_, fieldsSet (update_template_fields st f0).2 "version" (FieldVal.int r), r,
      rfl, rfl, fieldsGet_fieldsSet _ _ _, Or.inl ?_⟩
    exact happ
  | error e =>
    simp only [happ, except_bind_pure, set_after_unlock, except_bind_ok]
    refine ⟨_, fieldsSet (update_template_fields st f0).2 "version" (FieldVal.int r), r,
      rfl, rfl, fieldsGet_fieldsSet _ _ _, Or.inr ⟨?_, rfl⟩⟩
    cases e
    exact happ

end ExportNodeHandler

open ExportNodeHandler in
/-- C2 counterexample: the claim says the operation itself never propagates
sgtk.TankError to its caller, but a TankError raised by
context.as_template_fields while computing the output path sits outside the
try block and propagates, leaving the output parameter untouched. -/
theorem C2_counterexample :
    refresh_file_path (Except.error ()) (fun _ => Except.error ()) (fun _ => []) []
      ⟨"node1", ⟨"'Element' not specified", true⟩, "", "", "", "\x7b\x7d", "", 0, true, ""⟩ =
      Except.error PyErr.tankError := rfl

open ExportNodeHandler in
/-- C2 (amended): when the template fields resolve (and the stored version
list parses), every sgtk.TankError raised while applying the template fields
to compute the output path is caught locally: the operation completes, the
output parameter ends up locked, and it holds the path produced by
apply_fields, or the placeholder error string exactly when apply_fields
raised.  A TankError from the field resolution itself still propagates (see
the counterexample). -/
theorem C2_refresh_file_path_amended (fieldsResult : Except Unit Fields)
    (applyFields : Fields → Except Unit String)
    (resolveAllVersions : Fields → List Int) (optionalKeys : List String)
    (st : ExportNodeState) (f0 : Fields) (vs0 : List Int)
    (hf : fieldsResult = Except.ok f0)
    (hparse : NodeHandlerBase.get_all_versions st.sgtk_all_versions = some vs0) :
    (refresh_file_path fieldsResult applyFields resolveAllVersions optionalKeys st).isOk
      = true ∧
    ∀ st', refresh_file_path fieldsResult applyFields resolveAllVersions optionalKeys st =
        Except.ok st' →
      st'.output.locked = true ∧
      ∃ (fs : Fields) (r : Int), fieldsGet fs "version" = some (FieldVal.int r) ∧
        ((applyFields fs = Except.ok st'.output.value) ∨
         (applyFields fs = Except.error () ∧ st'.output.value = DEFAULT_ERROR_STRING)) := by
  subst hf
  obtain ⟨st', fs, r, heq, hlock, hget, hor⟩ :=
    refresh_file_path_run applyFields resolveAllVersions optionalKeys st f0 vs0 hparse
  constructor
  · rw [heq]
    rfl
  · intro st'' heq'
    rw [heq] at heq'
    injection heq' with he
    subst he
    exact ⟨hlock, fs, r, hget, hor⟩

open ExportNodeHandler in
/-- C2 witness: the amended theorem applied at a concrete node state whose
version list is empty and whose apply_fields raises TankError. -/
theorem C2_witness :
    (refresh_file_path (Except.ok []) (fun _ => Except.error ()) (fun _ => []) []
      ⟨"node1", ⟨"path", true⟩, "", "", "", "\x7b\x7d", "", 0, true, ""⟩).isOk = true :=
  (C2_refresh_file_path_amended (Except.ok []) (fun _ => Except.error ()) (fun _ => []) []
    ⟨"node1", ⟨"path", true⟩, "", "", "", "\x7b\x7d", "", 0, true, ""⟩ [] []
    rfl (by decide)).1

/-! ### ParmFolder child bookkeeping  (claim C8)

Source: python/tk_houdini/utils/parm_template_wrappers.py, lines 84-95
(ParmFolder.__init__ builds __children and the parallel name list
__child_names), 121-160 (remove_existing and _remove_existing_children),
162-252 (extend, extend_templates, append, append_template, insert,
insert_templates, pop_template, get) and 270-278 (__contains__ via
descendents).

Modelling notes: a Parm is a leaf, a ParmFolder carries its children and the
shadow name list.  Parent pointers are not modelled; the operations are taken
on a root folder, whose get_root is itself (C9 shows get_root never returns on
a folder that has a parent).  Parm.from_template wraps a Houdini template,
building the two lists in parallel, so templates enter the model as already
wrapped trees and the _template operation variants coincide with their Parm
counterparts.  The for-loop of _remove_existing_children is modelled with
Python list-iterator semantics: an index that advances while pop_template
shrinks the list (so popping skips the following element).  ParmFolder
defines __len__, so an empty folder is falsy and `if parm` after
remove_existing skips it.  fuel bounds the recursion; none models
non-termination or a raised IndexError/ValueError. -/

namespace ParmWrappers

inductive PTree where
  | leaf : String → PTree
  | folder : String → List PTree → List String → PTree

def PTree.name : PTree → String
  | PTree.leaf n => n
  | PTree.folder n _ _ => n

mutual
/-- Names of the descendents of a Parm, as listed by __contains__. -/
def descNames : PTree → List String
  | PTree.leaf _ => []
  | PTree.folder _ cs _ => descNamesList cs
def descNamesList : List PTree → List String
  | [] => []
  | t :: ts => (t.name :: descNames t) ++ descNamesList ts
end

/-- ParmFolder.__contains__: name in [item.name for item in self.descendents]. -/
def containsName (root : PTree) (nm : String) : Bool := (descNames root).contains nm

/-- Model of Python list.index: the first index of the value, None for the
ValueError on a missing value. -/
def pyIndexOf (nm : String) : List String → Option Nat
  | [] => none
  | x :: xs => if x == nm then some 0 else (pyIndexOf nm xs).map (· + 1)

/-- Model of Python list.insert for a non-negative index: past-the-end
positions append. -/
def pyInsert {α : Type} (i : Nat) (x : α) : List α → List α
  | [] => [x]
  | y :: ys =>
    match i with
    | 0 => x :: y :: ys
    | i + 1 => y :: pyInsert i x ys

/-- Python truthiness of a Parm: ParmFolder has __len__, so an empty folder is
falsy; a plain Parm is truthy. -/
def PTree.truthy : PTree → Bool
  | PTree.leaf _ => true
  | PTree.folder _ cs _ => !cs.isEmpty

/-- The for-loop of _remove_existing_children over the children of one
folder, given as its child list and name list.  i is the list-iterator index.
A child whose name is in root is popped through
pop_template(index_of_template(child.name)); a folder child is cleaned
recursively in place. -/
def relChildrenLoop (root : PTree) : Nat → List PTree → List String → Nat →
    Option (List PTree × List String)
  | 0, _, _, _ => none
  | fuel + 1, cs, ns, i =>
    if h : i < cs.length then
      let child := cs.get ⟨i, h⟩
      if containsName root child.name then
        match pyIndexOf child.name ns with
        | none => none
        | some j =>
          if j < ns.length ∧ j < cs.length then
            relChildrenLoop root fuel (cs.eraseIdx j) (ns.eraseIdx j) (i + 1)
          else none
      else
        match child with
        | PTree.folder m ccs cns =>
          match relChildrenLoop root fuel ccs cns 0 with
          | none => none
          | some p => relChildrenLoop root fuel (cs.set i (PTree.folder m p.1 p.2)) ns (i + 1)
        | PTree.leaf _ => relChildrenLoop root fuel cs ns (i + 1)
    else some (cs, ns)

/-- Embedding of ParmFolder._remove_existing_children. -/
def remove_existing_children (root : PTree) (fuel : Nat) : PTree → Option PTree
  | PTree.leaf n => some (PTree.leaf n)
  | PTree.folder n cs ns =>
    (relChildrenLoop root fuel cs ns 0).map (fun p => PTree.folder n p.1 p.2)

/-- Embedding of ParmFolder.remove_existing on a root folder (get_root =
self).  The outer none models non-termination; the inner none models the
method returning None for a duplicate parm. -/
def remove_existing (root : PTree) (fuel : Nat) (parm : PTree) :
    Option (Option PTree) :=
  if containsName root parm.name then some none
  else
    match parm with
    | PTree.folder m cs ns =>
      (remove_existing_children root fuel (PTree.folder m cs ns)).map some
    | PTree.leaf n => some (some (PTree.leaf n))

/-- Embedding of ParmFolder.append on a root folder: sanitise the parm, then
push the name and the parm onto the two parallel lists (a falsy — emptied —
parm is skipped). -/
def PTree.append (fuel : Nat) : PTree → PTree → Option PTree
  | PTree.folder n cs ns, parm =>
    match remove_existing (PTree.folder n cs ns) fuel parm with
    | none => none
    | some none => some (PTree.folder n cs ns)
    | some (some p) =>
      if p.truthy then some (PTree.folder n (cs ++ [p]) (ns ++ [p.name]))
      else some (PTree.folder n cs ns)
  | PTree.leaf _, _ => none

/-- Embedding of ParmFolder.insert on a root folder. -/
def PTree.insert (fuel : Nat) (i : Nat) : PTree → PTree → Option PTree
  | PTree.folder n cs ns, parm =>
    match remove_existing (PTree.folder n cs ns) fuel parm with
    | none => none
    | some none => some (PTree.folder n cs ns)
    | some (some p) =>
      if p.truthy then some (PTree.folder n (pyInsert i p cs) (pyInsert i p.name ns))
      else some (PTree.folder n cs ns)
  | PTree.leaf _, _ => none

/-- Embedding of ParmFolder.pop_template: pop the name, pop the child, return
the new folder and the popped child; none models a raised IndexError. -/
def PTree.pop_template (i : Nat) : PTree → Option (PTree × PTree)
  | PTree.folder n cs ns =>
    if i < ns.length then
      if h : i < cs.length then
        some (PTree.folder n (cs.eraseIdx i) (ns.eraseIdx i), cs.get ⟨i, h⟩)
      else none
    else none
  | PTree.leaf _ => none

/-- Embedding of ParmFolder.extend: append each parm in turn. -/
def PTree.extend (fuel : Nat) : PTree → List PTree → Option PTree
  | F, [] => some F
  | F, p :: ps => (F.append fuel p).bind (fun G => G.extend fuel ps)

/-- append_template wraps the template and appends (Parm.from_template builds
the wrapped tree, which is the model input already). -/
def PTree.append_template (fuel : Nat) (F t : PTree) : Option PTree := F.append fuel t

/-- insert_template wraps the template and inserts. -/
def PTree.insert_template (fuel : Nat) (i : Nat) (F t : PTree) : Option PTree :=
  F.insert fuel i t

/-- extend_templates wraps each template and extends. -/
def PTree.extend_templates (fuel : Nat) (F : PTree) (ts : List PTree) : Option PTree :=
  F.extend fuel ts

/-- One operation of the claimed set, with its argument. -/
inductive FolderOp where
  | append : PTree → FolderOp
  | appendTemplate : PTree → FolderOp
  | insert : Nat → PTree → FolderOp
  | insertTemplate : Nat → PTree → FolderOp
  | extend : List PTree → FolderOp
  | extendTemplates : List PTree → FolderOp
  | popTemplate : Nat → FolderOp

def applyOp (fuel : Nat) (F : PTree) : FolderOp → Option PTree
  | FolderOp.append p => F.append fuel p
  | FolderOp.appendTemplate p => F.append_template fuel p
  | FolderOp.insert i p => F.insert fuel i p
  | FolderOp.insertTemplate i p => F.insert_template fuel i p
  | FolderOp.extend ps => F.extend fuel ps
  | FolderOp.extendTemplates ps => F.extend_templates fuel ps
  | FolderOp.popTemplate i => (F.pop_template i).map Prod.fst

def applyOps (fuel : Nat) : PTree → List FolderOp → Option PTree
  | F, [] => some F
  | F, op :: ops => (applyOp fuel F op).bind (fun G => applyOps fuel G ops)

mutual
/-- The claimed invariant: at every folder of the tree, the shadow name list
is the list of the children's names, in order. -/
def namesOk : PTree → Bool
  | PTree.leaf _ => true
  | PTree.folder _ cs ns => (ns == cs.map PTree.name) && namesOkList cs
def namesOkList : List PTree → Bool
  | [] => true
  | t :: ts => namesOk t && namesOkList ts
end

/-- namesOk of an operation's payload: templates are wrapped by
Parm.from_template, which builds the two lists in parallel, so arguments
always satisfy the invariant at construction time. -/
def opArgsOk : FolderOp → Bool
  | FolderOp.append p => namesOk p
  | FolderOp.appendTemplate p => namesOk p
  | FolderOp.insert _ p => namesOk p
  | FolderOp.insertTemplate _ p => namesOk p
  | FolderOp.extend ps => namesOkList ps
  | FolderOp.extendTemplates ps => namesOkList ps
  | FolderOp.popTemplate _ => true

theorem namesOkList_iff : ∀ cs : List PTree,
    namesOkList cs = true ↔ ∀ t ∈ cs, namesOk t = true := by
  intro cs
  induction cs with
  | nil => simp [namesOkList]
  | cons t ts ih =>
    rw [namesOkList, Bool.and_eq_true, ih]
    constructor
    · intro ⟨h1, h2⟩ x hx
      rcases List.mem_cons.mp hx with rfl | hx'
      · exact h1
      · exact h2 x hx'
    · intro h
      exact ⟨h t (List.mem_cons_self _ _), fun x hx => h x (List.mem_cons_of_mem _ hx)⟩

theorem namesOk_folder_iff (n : String) (cs : List PTree) (ns : List String) :
    namesOk (PTree.folder n cs ns) = true ↔
      (ns = cs.map PTree.name ∧ namesOkList cs = true) := by
  rw [namesOk, Bool.and_eq_true, beq_iff_eq]

theorem map_name_eraseIdx : ∀ (cs : List PTree) (i : Nat),
    (cs.eraseIdx i).map PTree.name = (cs.map PTree.name).eraseIdx i := by
  intro cs
  induction cs with
  | nil => intro i; rfl
  | cons x xs ih =>
    intro i
    cases i with
    | zero => rfl
    | succ i => simp [List.eraseIdx, ih i]

theorem set_get_self {α : Type} : ∀ (l : List α) (i : Nat) (h : i < l.length),
    l.set i (l.get ⟨i, h⟩) = l := by
  intro l
  induction l with
  | nil => intro i h; cases h
  | cons x xs ih =>
    intro i h
    cases i with
    | zero => rfl
    | succ i =>
      have h' := Nat.lt_of_succ_lt_succ h
      show x :: xs.set i ((x :: xs).get ⟨i + 1, h⟩) = x :: xs
      rw [show (x :: xs).get ⟨i + 1, h⟩ = xs.get ⟨i, h'⟩ from rfl, ih i h']

theorem my_get_map {α β : Type} (f : α → β) : ∀ (l : List α) (i : Nat)
    (h : i < l.length) (h2 : i < (l.map f).length),
    (l.map f).get ⟨i, h2⟩ = f (l.get ⟨i, h⟩) := by
  intro l
  induction l with
  | nil => intro i h _; cases h
  | cons x xs ih =>
    intro i h h2
    cases i with
    | zero => rfl
    | succ i => exact ih i (Nat.lt_of_succ_lt_succ h) (by simpa using h2)

theorem pyInsert_map {α β : Type} (f : α → β) (x : α) : ∀ (l : List α) (i : Nat),
    (pyInsert i x l).map f = pyInsert i (f x) (l.map f) := by
  intro l
  induction l with
  | nil => intro i; cases i <;> rfl
  | cons y ys ih =>
    intro i
    cases i with
    | zero => rfl
    | succ i => simp [pyInsert, ih i]

theorem mem_pyInsert {α : Type} {a x : α} : ∀ (l : List α) (i : Nat),
    a ∈ pyInsert i x l → a = x ∨ a ∈ l := by
  intro l
  induction l with
  | nil =>
    intro i h
    rw [pyInsert] at h
    rcases List.mem_cons.mp h with he | hc
    · exact Or.inl he
    · cases hc
  | cons y ys ih =>
    intro i h
    cases i with
    | zero =>
      rw [pyInsert] at h
      rcases List.mem_cons.mp h with he | hc
      · exact Or.inl he
      · exact Or.inr hc
    | succ i =>
      rw [pyInsert] at h
      rcases List.mem_cons.mp h with he | hc
      · exact Or.inr (he ▸ List.mem_cons_self _ _)
      · rcases ih i hc with he' | hm
        · exact Or.inl he'
        · exact Or.inr (List.mem_cons_of_mem _ hm)

theorem pyIndexOf_spec : ∀ (l : List String) (nm : String) (j : Nat),
    pyIndexOf nm l = some j → ∃ h : j < l.length, l.get ⟨j, h⟩ = nm := by
  intro l
  induction l with
  | nil => intro nm j h; cases h
  | cons x xs ih =>
    intro nm j h
    rw [pyIndexOf] at h
    by_cases hx : (x == nm) = true
    · rw [if_pos hx] at h
      injection h with hj
      subst hj
      exact ⟨Nat.succ_pos _, beq_iff_eq.mp hx⟩
    · rw [if_neg hx] at h
      cases hrec : pyIndexOf nm xs with
      | none => rw [hrec] at h; cases h
      | some j' =>
        rw [hrec] at h
        injection h with hj
        subst hj
        obtain ⟨hlt, hget⟩ := ih nm j' hrec
        exact ⟨Nat.succ_lt_succ hlt, hget⟩

theorem relChildrenLoop_names : ∀ (fuel : Nat) (root : PTree) (cs : List PTree)
    (ns : List String) (i : Nat) (cs' : List PTree) (ns' : List String),
    relChildrenLoop root fuel cs ns i = some (cs', ns') →
    ns = cs.map PTree.name → namesOkList cs = true →
    (ns' = cs'.map PTree.name ∧ namesOkList cs' = true) := by
  intro fuel
  induction fuel with
  | zero => intro root cs ns i cs' ns' h; cases h
  | succ fuel ih =>
    intro root cs ns i cs' ns' h hpar hok
    rw [relChildrenLoop] at h
    by_cases hi : i < cs.length
    · rw [dif_pos hi] at h
      dsimp only at h
      by_cases hcont : containsName root (cs.get ⟨i, hi⟩).name = true
      · rw [if_pos hcont] at h
        cases hidx : pyIndexOf (cs.get ⟨i, hi⟩).name ns with
        | none => rw [hidx] at h; cases h
        | some j =>
          rw [hidx] at h
          dsimp only at h
          by_cases hj : j < ns.length ∧ j < cs.length
          · rw [if_pos hj] at h
            refine ih root _ _ _ cs' ns' h ?_ ?_
            · rw [hpar, map_name_eraseIdx]
            · rw [namesOkList_iff] at hok ⊢
              intro t ht
              exact hok t ((List.eraseIdx_sublist cs j).subset ht)
          · rw [if_neg hj] at h
            cases h
      · rw [if_neg hcont] at h
        cases hch : cs.get ⟨i, hi⟩ with
        | leaf m =>
          rw [hch] at h
          dsimp only at h
          exact ih root cs ns (i + 1) cs' ns' h hpar hok
        | folder m ccs cns =>
          rw [hch] at h
          dsimp only at h
          cases hrec : relChildrenLoop root fuel ccs cns 0 with
          | none => rw [hrec] at h; cases h
          | some p =>
            rw [hrec] at h
            dsimp only at h
            have hchOk : namesOk (cs.get ⟨i, hi⟩) = true :=
              (namesOkList_iff cs).mp hok _ (List.get_mem cs i hi)
            rw [hch, namesOk_folder_iff] at hchOk
            obtain ⟨hcpar, hcok⟩ := hchOk
            obtain ⟨hp1, hp2⟩ := ih root ccs cns 0 p.1 p.2 (by rw [hrec]) hcpar hcok
            refine ih root _ _ _ cs' ns' h ?_ ?_
            · rw [List.map_set]
              have hname : (PTree.folder m p.1 p.2).name = (cs.get ⟨i, hi⟩).name := by
                rw [hch]
                rfl
              have hmi : i < (cs.map PTree.name).length := by simpa using hi
              have hset : (cs.map PTree.name).set i ((PTree.folder m p.1 p.2).name) =
                  cs.map PTree.name := by
                rw [hname, ← my_get_map PTree.name cs i hi hmi]
                exact set_get_self _ _ hmi
              rw [hset, ← hpar]
            · rw [namesOkList_iff]
              intro t ht
              rcases List.mem_or_eq_of_mem_set ht with hmem | he
              · exact (namesOkList_iff cs).mp hok t hmem
              · rw [he, namesOk_folder_iff]
                exact ⟨hp1, hp2⟩
    · rw [dif_neg hi] at h
      injection h with h'
      injection h' with h1 h2
      subst h1
      subst h2
      exact ⟨hpar, hok⟩

theorem remove_existing_children_spec {root : PTree} {fuel : Nat} {parm parm' : PTree}
    (h : remove_existing_children root fuel parm = some parm')
    (hok : namesOk parm = true) : namesOk parm' = true := by
  cases parm with
  | leaf n =>
    rw [remove_existing_children] at h
    injection h with h'
    subst h'
    exact hok
  | folder n cs ns =>
    rw [remove_existing_children] at h
    cases hrec : relChildrenLoop root fuel cs ns 0 with
    | none => rw [hrec] at h; cases h
    | some p =>
      rw [hrec] at h
      injection h with h'
      subst h'
      rw [namesOk_folder_iff] at hok
      obtain ⟨hp1, hp2⟩ :=
        relChildrenLoop_names fuel root cs ns 0 p.1 p.2 (by rw [hrec]) hok.1 hok.2
      rw [namesOk_folder_iff]
      exact ⟨hp1, hp2⟩

theorem remove_existing_spec {root : PTree} {fuel : Nat} {parm : PTree}
    {res : Option PTree} (h : remove_existing root fuel parm = some res)
    (hok : namesOk parm = true) : ∀ p, res = some p → namesOk p = true := by
  intro p hp
  subst hp
  unfold remove_existing at h
  by_cases hcont : containsName root parm.name = true
  · rw [if_pos hcont] at h
    injection h with h'
    cases h'
  · rw [if_neg hcont] at h
    cases parm with
    | leaf n =>
      dsimp only at h
      injection h with h'
      injection h' with h''
      rw [← h'']
      exact hok
    | folder m cs ns =>
      dsimp only at h
      cases hrc : remove_existing_children root fuel (PTree.folder m cs ns) with
      | none => rw [hrc] at h; cases h
      | some q =>
        rw [hrc] at h
        injection h with h'
        injection h' with h''
        rw [← h'']
        exact remove_existing_children_spec hrc hok

theorem append_names {fuel : Nat} {F parm F' : PTree}
    (h : F.append fuel parm = some F') (hF : namesOk F = true)
    (hparm : namesOk parm = true) : namesOk F' = true := by
  cases F with
  | leaf n => cases h
  | folder n cs ns =>
    rw [PTree.append] at h
    cases hre : remove_existing (PTree.folder n cs ns) fuel parm with
    | none => rw [hre] at h; cases h
    | some res =>
      rw [hre] at h
      cases res with
      | none =>
        dsimp only at h
        injection h with h'
        rw [← h']
        exact hF
      | some p =>
        dsimp only at h
        have hpok : namesOk p = true := remove_existing_spec hre hparm p rfl
        by_cases ht : p.truthy = true
        · rw [if_pos ht] at h
          injection h with h'
          rw [← h', namesOk_folder_iff]
          rw [namesOk_folder_iff] at hF
          constructor
          · rw [List.map_append, hF.1]
            rfl
          · rw [namesOkList_iff]
            intro t htm
            rcases List.mem_append.mp htm with hm | hm
            · exact (namesOkList_iff cs).mp hF.2 t hm
            · rw [List.mem_singleton.mp hm]
              exact hpok
        · rw [if_neg ht] at h
          injection h with h'
          rw [← h']
          exact hF

theorem insert_names {fuel : Nat} {i : Nat} {F parm F' : PTree}
    (h : F.insert fuel i parm = some F') (hF : namesOk F = true)
    (hparm : namesOk parm = true) : namesOk F' = true := by
  cases F with
  | leaf n => cases h
  | folder n cs ns =>
    rw [PTree.insert] at h
    cases hre : remove_existing (PTree.folder n cs ns) fuel parm with
    | none => rw [hre] at h; cases h
    | some res =>
      rw [hre] at h
      cases res with
      | none =>
        dsimp only at h
        injection h with h'
        rw [← h']
        exact hF
      | some p =>
        dsimp only at h
        have hpok : namesOk p = true := remove_existing_spec hre hparm p rfl
        by_cases ht : p.truthy = true
        · rw [if_pos ht] at h
          injection h with h'
          rw [← h', namesOk_folder_iff]
          rw [namesOk_folder_iff] at hF
          constructor
          · rw [pyInsert_map PTree.name p cs i, hF.1]
          · rw [namesOkList_iff]
            intro t htm
            rcases mem_pyInsert cs i htm with he | hm
            · rw [he]
              exact hpok
            · exact (namesOkList_iff cs).mp hF.2 t hm
        · rw [if_neg ht] at h
          injection h with h'
          rw [← h']
          exact hF

theorem pop_template_names {i : Nat} {F F' popped : PTree}
    (h : F.pop_template i = some (F', popped)) (hF : namesOk F = true) :
    namesOk F' = true := by
  cases F with
  | leaf n => cases h
  | folder n cs ns =>
    rw [PTree.pop_template] at h
    by_cases hn : i < ns.length
    · rw [if_pos hn] at h
      by_cases hc : i < cs.length
      · rw [dif_pos hc] at h
        injection h with h'
        injection h' with h1 h2
        rw [← h1, namesOk_folder_iff]
        rw [namesOk_folder_iff] at hF
        constructor
        · rw [map_name_eraseIdx, hF.1]
        · rw [namesOkList_iff]
          intro t htm
          exact (namesOkList_iff cs).mp hF.2 t ((List.eraseIdx_sublist cs i).subset htm)
      · rw [dif_neg hc] at h
        cases h
    · rw [if_neg hn] at h
      cases h

theorem extend_names {fuel : Nat} : ∀ {ps : List PTree} {F F' : PTree},
    F.extend fuel ps = some F' → namesOk F = true → namesOkList ps = true →
    namesOk F' = true := by
  intro ps
  induction ps with
  | nil =>
    intro F F' h hF _
    rw [PTree.extend] at h
    injection h with h'
    rw [← h']
    exact hF
  | cons p ps ih =>
    intro F F' h hF hps
    rw [PTree.extend] at h
    cases happ : F.append fuel p with
    | none => rw [happ] at h; cases h
    | some G =>
      rw [happ] at h
      rw [namesOkList, Bool.and_eq_true] at hps
      exact ih h (append_names happ hF hps.1) hps.2

theorem applyOp_names {fuel : Nat} {F F' : PTree} {op : FolderOp}
    (h : applyOp fuel F op = some F') (hF : namesOk F = true)
    (harg : opArgsOk op = true) : namesOk F' = true := by
  cases op with
  | append p => exact append_names h hF harg
  | appendTemplate p => exact append_names h hF harg
  | insert i p => exact insert_names h hF harg
  | insertTemplate i p => exact insert_names h hF harg
  | extend ps => exact extend_names h hF harg
  | extendTemplates ps => exact extend_names h hF harg
  | popTemplate i =>
    rw [applyOp] at h
    cases hp : F.pop_template i with
    | none => rw [hp] at h; cases h
    | some q =>
      rw [hp] at h
      injection h with h'
      rw [← h']
      exact pop_template_names (by rw [hp]) hF

theorem applyOps_names {fuel : Nat} : ∀ (ops : List FolderOp) (F F' : PTree),
    applyOps fuel F ops = some F' → namesOk F = true →
    (∀ op ∈ ops, opArgsOk op = true) → namesOk F' = true := by
  intro ops
  induction ops with
  | nil =>
    intro F F' h hF _
    rw [applyOps] at h
    injection h with h'
    rw [← h']
    exact hF
  | cons op ops ih =>
    intro F F' h hF hops
    rw [applyOps] at h
    cases hop : applyOp fuel F op with
    | none => rw [hop] at h; cases h
    | some G =>
      rw [hop] at h
      exact ih G F' h (applyOp_names hop hF (hops op (List.mem_cons_self _ _)))
        (fun o ho => hops o (List.mem_cons_of_mem _ ho))

end ParmWrappers

open ParmWrappers in
/-- C8: starting from a folder whose shadow name list mirrors its children
(the state ParmFolder.__init__ establishes), any sequence of append,
append_template, insert, insert_template, extend, extend_templates and
pop_template operations that completes leaves every folder of the tree with
its name list equal to the list of its children's names, in order; hence
index_of_template and get address the same child, and pop_template removes
the matching entry from both lists. -/
theorem C8_parm_folder_invariant (fuel : Nat) (F : PTree) (ops : List FolderOp)
    (hF : namesOk F = true) (hops : ∀ op ∈ ops, opArgsOk op = true) :
    ∀ F', applyOps fuel F ops = some F' →
      (namesOk F' = true ∧
       ∀ (n : String) (cs : List PTree) (ns : List String), F' = PTree.folder n cs ns →
         (ns = cs.map PTree.name ∧
          ∀ (nm : String) (j : Nat), pyIndexOf nm ns = some j →
            ∃ hj : j < cs.length, (cs.get ⟨j, hj⟩).name = nm)) := by
  intro F' h
  have hok := applyOps_names ops F F' h hF hops
  refine ⟨hok, ?_⟩
  intro n cs ns he
  subst he
  rw [namesOk_folder_iff] at hok
  obtain ⟨hns, hlist⟩ := hok
  subst hns
  refine ⟨rfl, ?_⟩
  intro nm j hidx
  obtain ⟨hlt, hget⟩ := pyIndexOf_spec _ nm j hidx
  have hlc : j < cs.length := by simpa using hlt
  refine ⟨hlc, ?_⟩
  rw [← hget]
  exact (my_get_map PTree.name cs j hlc hlt).symm

open ParmWrappers in
/-- C8 witness: the theorem applied to a concrete run: append a leaf, then
insert another at the front. -/
theorem C8_witness :
    namesOk (PTree.folder "root" [PTree.leaf "b", PTree.leaf "a"] ["b", "a"]) = true :=
  ((C8_parm_folder_invariant 4 (PTree.folder "root" [] [])
      [FolderOp.append (PTree.leaf "a"), FolderOp.insert 0 (PTree.leaf "b")]
      (by decide) (by decide))
    (PTree.folder "root" [PTree.leaf "b", PTree.leaf "a"] ["b", "a"]) (by rfl)).1

end TkHoudini
